import Mathlib

/-!
# Verification of the iGPSport2Garmin FIT converter

A shallow embedding of `src/fitconverter/fit_converter.py` (the pure-Python
FIT binary converter) together with theorems checking the specification's
claims against it.

Byte buffers are modelled as `List Nat` (Python `bytearray` values are bytes,
i.e. naturals below 256; the embedding never needs that bound because every
read masks or is compared against constants exactly as the source does).
Positions are `Nat` indices.  Out-of-range reads are modelled with `List.getD`
— every read performed by the source is guarded by the same bounds checks the
source performs, so the default is never observable.

The record-scanning `while` loop is embedded as a fuel-indexed structural
recursion (`scanLoop`).  Each loop iteration advances `pos` by at least one
(proved in `scanStep_pos_lt`), so fuel `endPos` — the amount the driver
`modifyManufacturerBinary` supplies — is always sufficient; this is proved as
`scanLoop_fuel_irrel` and used to reason about the loop independently of fuel.

`ScanState.patches` is a ghost field: it records `(position, width)` of every
in-place payload write (the identity-field patches) and is never read by the
control flow.  It exists so that frame properties can be stated.
-/

namespace FitConverter

/-- Little-endian 16-bit read, as `struct.unpack('<H', data[i:i+2])`. -/
def readLE16 (data : List Nat) (i : Nat) : Nat :=
  data.getD i 0 + 256 * data.getD (i + 1) 0

/-- Little-endian 32-bit read, as `struct.unpack('<I', data[i:i+4])`. -/
def readLE32 (data : List Nat) (i : Nat) : Nat :=
  data.getD i 0 + 256 * data.getD (i + 1) 0 + 65536 * data.getD (i + 2) 0 +
    16777216 * data.getD (i + 3) 0

/-- Little-endian 16-bit write, as `struct.pack_into('<H', data, i, v)`
(the source only packs values below 2^16). -/
def writeLE16 (data : List Nat) (i v : Nat) : List Nat :=
  (data.set i (v % 256)).set (i + 1) (v / 256 % 256)

/-- Little-endian 32-bit write, as `struct.pack_into('<I', data, i, v)`
(the source only packs values below 2^32; larger values raise, which the
driver models explicitly). -/
def writeLE32 (data : List Nat) (i v : Nat) : List Nat :=
  ((((data.set i (v % 256)).set (i + 1) (v / 256 % 256)).set
    (i + 2) (v / 65536 % 256)).set (i + 3) (v / 16777216 % 256))

/-- Splice, `data[i:i] = xs`: insert `xs` into the buffer at position `i`. -/
def insertAt (data : List Nat) (i : Nat) (xs : List Nat) : List Nat :=
  data.take i ++ xs ++ data.drop i

/-- The 16-entry nibble table of `calculate_crc16`. -/
def crcTable : List Nat :=
  [0x0000, 0xCC01, 0xD801, 0x1400, 0xF001, 0x3C00, 0x2800, 0xE401,
   0xA001, 0x6C00, 0x7800, 0xB401, 0x5000, 0x9C01, 0x8801, 0x4400]

/-- One byte of the FIT CRC-16: two 4-bit table steps (low nibble then high
nibble), exactly the loop body of `calculate_crc16`. -/
def crc16Step (crc byte : Nat) : Nat :=
  let tmp := crcTable.getD (crc &&& 0xF) 0
  let crc1 := ((crc >>> 4) &&& 0x0FFF) ^^^ tmp ^^^ crcTable.getD (byte &&& 0xF) 0
  let tmp2 := crcTable.getD (crc1 &&& 0xF) 0
  ((crc1 >>> 4) &&& 0x0FFF) ^^^ tmp2 ^^^ crcTable.getD ((byte >>> 4) &&& 0xF) 0

/-- Embedding of `calculate_crc16(data)`: fold the per-byte step over the buffer, starting
from 0. -/
def calculateCrc16 (data : List Nat) : Nat :=
  data.foldl crc16Step 0

/-- A stored message definition: `local_definitions[t] = {'global_msg_num': g,
'fields': fs}` where each field is `(field_def_num, field_size, field_type)`. -/
structure MsgDef where
  globalMsgNum : Nat
  fields : List (Nat × Nat × Nat)

/-- Message size, `sum(field[1] for field in fields)`: the byte length of a data message. -/
def sumSizes : List (Nat × Nat × Nat) → Nat
  | [] => 0
  | f :: rest => f.2.1 + sumSizes rest

/-- The field-definition reading loop of a definition record: read up to `n`
`(field_def_num, size, base_type)` triples starting at `pos`, stopping early
(as the source's `break`) when fewer than 3 bytes remain.  Returns the triples
read and the final position. -/
def readFields (data : List Nat) (pos : Nat) : Nat → List (Nat × Nat × Nat) × Nat
  | 0 => ([], pos)
  | n + 1 =>
    if data.length < pos + 3 then ([], pos)
    else
      let r := readFields data (pos + 3) n
      ((data.getD pos 0, data.getD (pos + 1) 0, data.getD (pos + 2) 0) :: r.1, r.2)

/-- State of the record-scanning loop of `_modify_manufacturer_binary`.
`patches` is ghost write-tracking (see module comment). -/
structure ScanState where
  data : List Nat
  pos : Nat
  defs : Nat → Option MsgDef
  manufacturerChanged : Bool
  fileCreatorFound : Bool
  patches : List (Nat × Nat)

/-- Why the scanning loop stopped.  The source does not reify this; the tags
follow the spec's taxonomy of the source's halt paths.  `truncatedDef` covers
both the explicit `break` when fewer than 5 bytes remain for a definition's
fixed part, and the case where the declared field count does not fit in the
buffer — in the latter case the source stores the partial definition and falls
out of the loop on the next bound check (the final position is then at least
`len - 2`, hence at least `endPos`; see `readFields_trunc_pos`), so tagging
the halt at the step itself yields the identical final state. -/
inductive HaltReason
  | endOfStream
  | truncatedDef
  | unknownLocalType
deriving DecidableEq

/-- The `file_id` field-patching loop (`global_msg_num == 0`): walk the
definition's fields keeping a running offset; stop at the first field that
does not fit; patch `(0,1) ↦ 4`, `(1,2) ↦ 1` (setting `manufacturer_changed`),
`(2,2) ↦ 3122`; `(4,4)` (time_created) and everything else untouched.
Returns (buffer, manufacturer_changed, ghost patch log). -/
def patchFileId (pos : Nat) :
    List Nat → List (Nat × Nat × Nat) → Nat → Bool → List (Nat × Nat) →
    List Nat × Bool × List (Nat × Nat)
  | data, [], _, mc, ps => (data, mc, ps)
  | data, f :: rest, off, mc, ps =>
    if data.length < pos + off + f.2.1 then (data, mc, ps)
    else if f.1 = 0 ∧ f.2.1 = 1 then
      patchFileId pos (data.set (pos + off) 4) rest (off + f.2.1) mc
        ((pos + off, 1) :: ps)
    else if f.1 = 1 ∧ f.2.1 = 2 then
      patchFileId pos (writeLE16 data (pos + off) 1) rest (off + f.2.1) true
        ((pos + off, 2) :: ps)
    else if f.1 = 2 ∧ f.2.1 = 2 then
      patchFileId pos (writeLE16 data (pos + off) 3122) rest (off + f.2.1) mc
        ((pos + off, 2) :: ps)
    else
      patchFileId pos data rest (off + f.2.1) mc ps

/-- The `device_info` field-patching loop (`global_msg_num == 23`):
`(2,2) ↦ 1` (setting `manufacturer_changed`), `(4,2) ↦ 3122`, rest untouched. -/
def patchDeviceInfo (pos : Nat) :
    List Nat → List (Nat × Nat × Nat) → Nat → Bool → List (Nat × Nat) →
    List Nat × Bool × List (Nat × Nat)
  | data, [], _, mc, ps => (data, mc, ps)
  | data, f :: rest, off, mc, ps =>
    if data.length < pos + off + f.2.1 then (data, mc, ps)
    else if f.1 = 2 ∧ f.2.1 = 2 then
      patchDeviceInfo pos (writeLE16 data (pos + off) 1) rest (off + f.2.1) true
        ((pos + off, 2) :: ps)
    else if f.1 = 4 ∧ f.2.1 = 2 then
      patchDeviceInfo pos (writeLE16 data (pos + off) 3122) rest (off + f.2.1) mc
        ((pos + off, 2) :: ps)
    else
      patchDeviceInfo pos data rest (off + f.2.1) mc ps

/-- Definition-record branch of the loop body (header bit 7 = 0, bit 6 = 1).
`hb` is the record header byte; on entry the source has already advanced past
it, hence `pos := s.pos + 1`.  Layout: reserved, architecture,
global_msg_num (LE u16), field_count, then `field_count` triples.  The
source's `break` when `pos + 4 >= len(data)` is the `truncatedDef` halt.  (A
second `if pos >= len(data): break` in the source after `pos += 4` is
unreachable — the first check already guarantees `pos + 4 < len` — and is
omitted.)  Storing the definition rebinds the local message type, and a
`global_msg_num` of 49 marks `file_creator_found`. -/
def defStep (s : ScanState) (hb : Nat) : ScanState × Option HaltReason :=
  let pos := s.pos + 1
  let lmt := hb &&& 0x0F
  if s.data.length ≤ pos + 4 then ({ s with pos := pos }, some .truncatedDef)
  else
    let gmn := readLE16 s.data (pos + 2)
    let numFields := s.data.getD (pos + 4) 0
    let r := readFields s.data (pos + 5) numFields
    let s' : ScanState :=
      { s with pos := r.2,
               defs := fun t => if t = lmt then some ⟨gmn, r.1⟩ else s.defs t,
               fileCreatorFound := if gmn = 49 then true else s.fileCreatorFound }
    if r.1.length < numFields then (s', some .truncatedDef) else (s', none)

/-- Data-record branch of the loop body (any header byte that is not a
normal definition header, including bit-7 "compressed timestamp" bytes, which
the source keys by their low 4 bits like ordinary data records).  An unbound
local message type is the source's "stopping to avoid further corruption"
`break`; otherwise dispatch on the bound definition's global message number
and advance by the sum of the field sizes. -/
def dataStep (s : ScanState) (hb : Nat) : ScanState × Option HaltReason :=
  let pos := s.pos + 1
  let lmt := hb &&& 0x0F
  match s.defs lmt with
  | none => ({ s with pos := pos }, some .unknownLocalType)
  | some dfn =>
    if dfn.globalMsgNum = 0 then
      let r := patchFileId pos s.data dfn.fields 0 s.manufacturerChanged s.patches
      ({ s with data := r.1, manufacturerChanged := r.2.1, patches := r.2.2,
                pos := pos + sumSizes dfn.fields }, none)
    else if dfn.globalMsgNum = 23 then
      let r := patchDeviceInfo pos s.data dfn.fields 0 s.manufacturerChanged s.patches
      ({ s with data := r.1, manufacturerChanged := r.2.1, patches := r.2.2,
                pos := pos + sumSizes dfn.fields }, none)
    else ({ s with pos := pos + sumSizes dfn.fields }, none)

/-- One iteration of the scanning loop: read the record header byte and
classify it exactly as the source's `if (header_byte & 0x80) == 0 and
(header_byte & 0x40) != 0`. -/
def scanStep (s : ScanState) : ScanState × Option HaltReason :=
  let hb := s.data.getD s.pos 0
  if hb &&& 0x80 = 0 ∧ hb &&& 0x40 ≠ 0 then defStep s hb else dataStep s hb

/-- The scanning `while pos < end_pos and pos < len(data)` loop, fuel-indexed.
Fuel `endPos` always suffices (see `scanLoop_fuel_irrel`); the driver supplies
exactly that. -/
def scanLoop (endPos : Nat) : Nat → ScanState → ScanState × HaltReason
  | 0, s => (s, .endOfStream)
  | fuel + 1, s =>
    if s.pos < endPos ∧ s.pos < s.data.length then
      match scanStep s with
      | (s', some r) => (s', r)
      | (s', none) => scanLoop endPos fuel s'
    else (s, .endOfStream)

/-- The fixed 16-byte block of `_create_file_creator_message`: a definition
record (local type 7, global message 49, fields software_version u16 base
0x84 and hardware_version u8 base 0x02) followed by a data record with
software_version = 975 (LE `0xCF 0x03`) and hardware_version = 255. -/
def FILE_CREATOR_MESSAGE : List Nat :=
  [0x47, 0x00, 0x00, 0x31, 0x00, 0x02,
   0x00, 0x02, 0x84,
   0x01, 0x01, 0x02,
   0x07, 0xCF, 0x03, 0xFF]

/-- The failure modes of the converter, all surfaced as `FitConverterError`:
the three header-validation failures, the empty-input guard of `convert_fit`,
and the `struct.error` raised by `pack_into('<I', ...)` when the updated data
size does not fit in 32 bits (wrapped into `FitConverterError` by
`convert_fit`). -/
inductive FitError
  | tooShort
  | badSignature
  | headerTooShort
  | emptyInput
  | packOverflow
deriving DecidableEq

/-- Lines 113–123: read protocol/profile versions, then force
protocol_version to 16 and profile_version to 2134 where they differ. -/
def normalizeHeader (data : List Nat) : List Nat :=
  let protocolVersion := data.getD 1 0
  let profileVersion := readLE16 data 2
  let d1 := if protocolVersion ≠ 16 then data.set 1 16 else data
  if profileVersion ≠ 2134 then writeLE16 d1 2 2134 else d1

/-- Scan bound `end_pos = min(header_size + data_size, len(data) - 2)`, computed on the
normalized buffer (same length and same bytes 0 and 4–7 as the input). -/
def endPosOf (fitData : List Nat) : Nat :=
  min (fitData.getD 0 0 + readLE32 fitData 4) ((normalizeHeader fitData).length - 2)

/-- Initial loop state: normalized buffer, `pos = header_size`, no stored
definitions, both flags false, empty ghost patch log. -/
def initStateOf (fitData : List Nat) : ScanState :=
  ⟨normalizeHeader fitData, fitData.getD 0 0, fun _ => none, false, false, []⟩

/-- Run the scanning loop on an input that passed header validation. -/
def runScan (fitData : List Nat) : ScanState × HaltReason :=
  scanLoop (endPosOf fitData) (endPosOf fitData) (initStateOf fitData)

/-- Final scan state of an input that passed header validation. -/
def scanOf (fitData : List Nat) : ScanState :=
  (runScan fitData).1

/-- Lines 314–347, the post-scan assembly: if a manufacturer field was
patched, splice in the file_creator block when none was observed (updating
the header data size, which raises — `packOverflow` — if the new size
overflows u32) and rewrite the trailing CRC when at least 16 bytes long;
otherwise return the buffer as mutated so far. -/
def assemble (dataSize : Nat) (s : ScanState) : Except FitError (List Nat) :=
  if s.manufacturerChanged then
    if s.fileCreatorFound then
      .ok (if 16 ≤ s.data.length then
             writeLE16 s.data (s.data.length - 2)
               (calculateCrc16 (s.data.take (s.data.length - 2)))
           else s.data)
    else
      if 4294967296 ≤ dataSize + FILE_CREATOR_MESSAGE.length then .error .packOverflow
      else
        let data1 := writeLE32 (insertAt s.data (s.data.length - 2) FILE_CREATOR_MESSAGE)
          4 (dataSize + FILE_CREATOR_MESSAGE.length)
        .ok (if 16 ≤ data1.length then
               writeLE16 data1 (data1.length - 2)
                 (calculateCrc16 (data1.take (data1.length - 2)))
             else data1)
  else .ok s.data

set_option linter.unusedVariables false in
/-- Embedding of `FitConverter._modify_manufacturer_binary(fit_data, new_manufacturer)`.
The `newManufacturer` argument is accepted but — exactly as in the source —
never used: every patch writes the literal constants 1 and 3122. -/
def modifyManufacturerBinary (fitData : List Nat) (newManufacturer : Nat) :
    Except FitError (List Nat) :=
  if fitData.length < 14 then .error .tooShort
  else if ¬((fitData.drop 8).take 4 = [0x2E, 0x46, 0x49, 0x54]) then .error .badSignature
  else if fitData.getD 0 0 < 12 then .error .headerTooShort
  else assemble (readLE32 fitData 4) (scanOf fitData)

/-- Embedding of `FitConverter.convert_fit` and the module-level `convert_fit`: reject empty
input, then call `_modify_manufacturer_binary(fit_data, 260)`. -/
def convertFit (fitData : List Nat) : Except FitError (List Nat) :=
  if fitData = [] then .error .emptyInput
  else modifyManufacturerBinary fitData 260

/-- The three header-validation conditions (lines 96–106). -/
def validHeader (d : List Nat) : Prop :=
  14 ≤ d.length ∧ (d.drop 8).take 4 = [0x2E, 0x46, 0x49, 0x54] ∧ 12 ≤ d.getD 0 0

/-- Reachability: `Reaches endPos s s'` holds when the scanning loop, started at `s`, passes through
`s'` after zero or more non-halting iterations. -/
inductive Reaches (endPos : Nat) : ScanState → ScanState → Prop
  | refl (s : ScanState) : Reaches endPos s s
  | step (s s' s'' : ScanState) :
      s.pos < endPos → s.pos < s.data.length → scanStep s = (s', none) →
      Reaches endPos s' s'' → Reaches endPos s s''

deriving instance DecidableEq for Except

/-! ## Concrete inputs used by counterexamples and witnesses

All are well-formed 12-byte-header FIT buffers (signature `.FIT` at offset 8)
with already-normalized version bytes, followed by a small record stream and a
2-byte trailer.  `0x40 0 0 0 0 1 / 1 2 132` is a `file_id` definition (local
type 0, one field: manufacturer, LE u16); `0x00 32 0` is the matching data
record carrying manufacturer 32; `0x0F` is a data record referencing the
unbound local type 15. -/

/-- Thirteen bytes: shorter than the 14-byte minimum. -/
def c8Input : List Nat := [0, 0, 0, 0, 0, 0, 0, 0, 0, 0, 0, 0, 0]

/-- Minimal input needing normalization only; trailer bytes `9 9` untouched. -/
def c6wInput : List Nat := [12, 0, 0, 0, 0, 0, 0, 0, 46, 70, 73, 84, 9, 9]

/-- Output of `convert c6wInput`: the header normalized in place, nothing else. -/
def c6wOut : List Nat := [12, 16, 86, 8, 0, 0, 0, 0, 46, 70, 73, 84, 9, 9]

/-- Already-normalized 14-byte input with zero payload and a zero trailer:
`convert` succeeds without touching a single byte, and the zero trailer does
not match the CRC of the first 12 bytes (which is 56350). -/
def c1ceInput : List Nat := [12, 16, 86, 8, 0, 0, 0, 0, 46, 70, 73, 84, 0, 0]

/-- Layout: header ++ file_id definition ++ file_id data (manufacturer 32) ++ trailer. -/
def c1wInput : List Nat :=
  [12, 16, 86, 8, 12, 0, 0, 0, 46, 70, 73, 84,
   0x40, 0, 0, 0, 0, 1, 1, 2, 132, 0x00, 32, 0, 0, 0]

/-- Output of `convert c1wInput`: manufacturer rewritten to 1, the 16-byte file_creator
block spliced before the trailer, payload size 12 → 28, CRC recomputed. -/
def c1wOut : List Nat :=
  [12, 16, 86, 8, 28, 0, 0, 0, 46, 70, 73, 84,
   0x40, 0, 0, 0, 0, 1, 1, 2, 132, 0x00, 1, 0,
   0x47, 0, 0, 0x31, 0, 2, 0, 2, 0x84, 1, 1, 2, 7, 0xCF, 3, 255, 196, 176]

/-- Same shape as `c1wInput` (separate constant for the C5 witness). -/
def c5wInput : List Nat :=
  [12, 16, 86, 8, 12, 0, 0, 0, 46, 70, 73, 84,
   0x40, 0, 0, 0, 0, 1, 1, 2, 132, 0x00, 32, 0, 0, 0]

/-- Output of `convert c5wInput`. -/
def c5wOut : List Nat :=
  [12, 16, 86, 8, 28, 0, 0, 0, 46, 70, 73, 84,
   0x40, 0, 0, 0, 0, 1, 1, 2, 132, 0x00, 1, 0,
   0x47, 0, 0, 0x31, 0, 2, 0, 2, 0x84, 1, 1, 2, 7, 0xCF, 3, 255, 196, 176]

/-- Same shape as `c1wInput` (separate constant for the C9 witness). -/
def c9wInput : List Nat :=
  [12, 16, 86, 8, 12, 0, 0, 0, 46, 70, 73, 84,
   0x40, 0, 0, 0, 0, 1, 1, 2, 132, 0x00, 32, 0, 0, 0]

/-- Output of `convert c9wInput`. -/
def c9wOut : List Nat :=
  [12, 16, 86, 8, 28, 0, 0, 0, 46, 70, 73, 84,
   0x40, 0, 0, 0, 0, 1, 1, 2, 132, 0x00, 1, 0,
   0x47, 0, 0, 0x31, 0, 2, 0, 2, 0x84, 1, 1, 2, 7, 0xCF, 3, 255, 196, 176]

/-- Layout: header ++ file_id definition+data ++ unbound data record `0x0F` ++ trailer.
The first conversion patches the manufacturer, halts at `0x0F`, and splices a
file_creator block the second conversion never reaches — so re-converting
splices a second one. -/
def c2Input : List Nat :=
  [12, 16, 86, 8, 13, 0, 0, 0, 46, 70, 73, 84,
   0x40, 0, 0, 0, 0, 1, 1, 2, 132, 0x00, 32, 0, 0x0F, 0, 0]

/-- Layout: header ++ unbound data record `0x0F` ++ file_id definition+data ++ trailer:
the scan halts immediately, so the file_id pair after the unbound record is
never patched. -/
def c4ceInput : List Nat :=
  [12, 16, 86, 8, 13, 0, 0, 0, 46, 70, 73, 84,
   0x0F, 0x40, 0, 0, 0, 0, 1, 1, 2, 132, 0x00, 32, 0, 0, 0]

/-- Layout: header ++ file_id definition with three fields (type u8, manufacturer u16,
product u16) ++ data record (type 9, manufacturer 32, product 0x0707) ++
trailer. -/
def c4wInput : List Nat :=
  [12, 16, 86, 8, 21, 0, 0, 0, 46, 70, 73, 84,
   0x40, 0, 0, 0, 0, 3, 0, 1, 0, 1, 2, 132, 2, 2, 132,
   0x00, 9, 32, 0, 7, 7, 0, 0]

/-- Output of `convert c4wInput`: type → 4, manufacturer → 1, product → 3122,
file_creator spliced, payload size 21 → 37, CRC recomputed. -/
def c4wOut : List Nat :=
  [12, 16, 86, 8, 37, 0, 0, 0, 46, 70, 73, 84,
   0x40, 0, 0, 0, 0, 3, 0, 1, 0, 1, 2, 132, 2, 2, 132,
   0x00, 4, 1, 0, 50, 12,
   0x47, 0, 0, 0x31, 0, 2, 0, 2, 0x84, 1, 1, 2, 7, 0xCF, 3, 255, 36, 175]

/-- Like `c2Input` but with declared payload size `0xFFFFFFFF`: the scan halts
at the unbound local type after patching the manufacturer, and the data-size
update `0xFFFFFFFF + 16` then overflows u32 — `struct.pack_into` raises. -/
def c7ceInput : List Nat :=
  [12, 16, 86, 8, 255, 255, 255, 255, 46, 70, 73, 84,
   0x40, 0, 0, 0, 0, 1, 1, 2, 132, 0x00, 32, 0, 0x0F, 0, 0]

/-- Layout: header ++ unbound data record `0x0F` first ++ file_id pair ++ trailer
(separate constant for the C7 witness). -/
def c7wInput : List Nat :=
  [12, 16, 86, 8, 13, 0, 0, 0, 46, 70, 73, 84,
   0x0F, 0x40, 0, 0, 0, 0, 1, 1, 2, 132, 0x00, 32, 0, 0, 0]

/-- The field list declared by `c4wInput`'s file_id definition. -/
def c4wF : List (Nat × Nat × Nat) := [(0, 1, 0), (1, 2, 132), (2, 2, 132)]

/-- A scan state sitting (pos 12) at a definition record that declares 2
fields (6 bytes) when only 0 bytes follow the field count in an 18-byte
buffer. -/
def c3wState : ScanState :=
  ⟨[12, 16, 86, 8, 6, 0, 0, 0, 46, 70, 73, 84, 0x40, 0, 0, 0, 0, 2],
   12, fun _ => none, false, false, []⟩

/-! ## Buffer lemmas -/

theorem getD_set_self (l : List Nat) {i : Nat} (v : Nat) (h : i < l.length) :
    (l.set i v).getD i 0 = v := by
  simp [List.getD_eq_getElem?_getD, List.getElem?_set_self h]

theorem getD_set_ne (l : List Nat) {i j : Nat} (v : Nat) (h : i ≠ j) :
    (l.set i v).getD j 0 = l.getD j 0 := by
  simp [List.getD_eq_getElem?_getD, List.getElem?_set_ne h]

theorem length_writeLE16 (l : List Nat) (i v : Nat) :
    (writeLE16 l i v).length = l.length := by
  simp [writeLE16]

theorem length_writeLE32 (l : List Nat) (i v : Nat) :
    (writeLE32 l i v).length = l.length := by
  simp [writeLE32]

theorem length_insertAt (l : List Nat) (i : Nat) (xs : List Nat) (h : i ≤ l.length) :
    (insertAt l i xs).length = l.length + xs.length := by
  simp [insertAt]
  omega

theorem getD_writeLE16_ne (l : List Nat) (i v : Nat) {j : Nat}
    (h1 : j ≠ i) (h2 : j ≠ i + 1) :
    (writeLE16 l i v).getD j 0 = l.getD j 0 := by
  unfold writeLE16
  rw [getD_set_ne _ _ (fun h => h2 h.symm), getD_set_ne _ _ (fun h => h1 h.symm)]

theorem getD_writeLE32_ne (l : List Nat) (i v : Nat) {j : Nat}
    (h1 : j ≠ i) (h2 : j ≠ i + 1) (h3 : j ≠ i + 2) (h4 : j ≠ i + 3) :
    (writeLE32 l i v).getD j 0 = l.getD j 0 := by
  unfold writeLE32
  rw [getD_set_ne _ _ (fun h => h4 h.symm), getD_set_ne _ _ (fun h => h3 h.symm),
    getD_set_ne _ _ (fun h => h2 h.symm), getD_set_ne _ _ (fun h => h1 h.symm)]

theorem getD_writeLE16_fst (l : List Nat) {i : Nat} (v : Nat) (h : i < l.length) :
    (writeLE16 l i v).getD i 0 = v % 256 := by
  unfold writeLE16
  rw [@getD_set_ne (l.set i (v % 256)) (i + 1) i _ (by omega)]
  exact getD_set_self l _ h

theorem getD_writeLE16_snd (l : List Nat) {i : Nat} (v : Nat) (h : i + 1 < l.length) :
    (writeLE16 l i v).getD (i + 1) 0 = v / 256 % 256 := by
  unfold writeLE16
  exact getD_set_self _ _ (by rw [List.length_set]; exact h)

theorem readLE16_writeLE16_self (l : List Nat) (i v : Nat)
    (h : i + 1 < l.length) (hv : v < 65536) :
    readLE16 (writeLE16 l i v) i = v := by
  unfold readLE16
  rw [getD_writeLE16_fst l v (by omega), getD_writeLE16_snd l v h]
  omega

theorem getD_writeLE32_b0 (l : List Nat) {i : Nat} (v : Nat) (h : i + 3 < l.length) :
    (writeLE32 l i v).getD i 0 = v % 256 := by
  unfold writeLE32
  rw [@getD_set_ne _ (i + 3) i _ (by omega), @getD_set_ne _ (i + 2) i _ (by omega),
    @getD_set_ne _ (i + 1) i _ (by omega)]
  exact getD_set_self l _ (by omega)

theorem getD_writeLE32_b1 (l : List Nat) {i : Nat} (v : Nat) (h : i + 3 < l.length) :
    (writeLE32 l i v).getD (i + 1) 0 = v / 256 % 256 := by
  unfold writeLE32
  rw [@getD_set_ne _ (i + 3) (i + 1) _ (by omega), @getD_set_ne _ (i + 2) (i + 1) _ (by omega)]
  exact getD_set_self _ _ (by rw [List.length_set]; omega)

theorem getD_writeLE32_b2 (l : List Nat) {i : Nat} (v : Nat) (h : i + 3 < l.length) :
    (writeLE32 l i v).getD (i + 2) 0 = v / 65536 % 256 := by
  unfold writeLE32
  rw [@getD_set_ne _ (i + 3) (i + 2) _ (by omega)]
  exact getD_set_self _ _ (by rw [List.length_set, List.length_set]; omega)

theorem getD_writeLE32_b3 (l : List Nat) {i : Nat} (v : Nat) (h : i + 3 < l.length) :
    (writeLE32 l i v).getD (i + 3) 0 = v / 16777216 % 256 := by
  unfold writeLE32
  exact getD_set_self _ _ (by rw [List.length_set, List.length_set, List.length_set]; omega)

theorem readLE32_writeLE32_self (l : List Nat) (i v : Nat)
    (h : i + 3 < l.length) (hv : v < 4294967296) :
    readLE32 (writeLE32 l i v) i = v := by
  unfold readLE32
  rw [getD_writeLE32_b0 l v h, getD_writeLE32_b1 l v h, getD_writeLE32_b2 l v h,
    getD_writeLE32_b3 l v h]
  omega

theorem readLE16_eq_of_getD (l₁ l₂ : List Nat) (i : Nat)
    (h0 : l₁.getD i 0 = l₂.getD i 0) (h1 : l₁.getD (i + 1) 0 = l₂.getD (i + 1) 0) :
    readLE16 l₁ i = readLE16 l₂ i := by
  unfold readLE16; rw [h0, h1]

theorem getD_insertAt_lt (l : List Nat) (k : Nat) (xs : List Nat) {i : Nat}
    (hik : i < k) (hk : k ≤ l.length) :
    (insertAt l k xs).getD i 0 = l.getD i 0 := by
  unfold insertAt
  have hlen : (l.take k).length = k := by rw [List.length_take]; omega
  rw [List.getD_eq_getElem?_getD, List.getD_eq_getElem?_getD,
    List.getElem?_append_left (by rw [List.length_append, hlen]; omega),
    List.getElem?_append_left (by rw [hlen]; omega),
    List.getElem?_take, if_pos hik]

theorem getD_insertAt_mid (l : List Nat) (k : Nat) (xs : List Nat) {j : Nat}
    (hj : j < xs.length) (hk : k ≤ l.length) :
    (insertAt l k xs).getD (k + j) 0 = xs.getD j 0 := by
  unfold insertAt
  have hlen : (l.take k).length = k := by rw [List.length_take]; omega
  rw [List.getD_eq_getElem?_getD, List.getD_eq_getElem?_getD,
    List.getElem?_append_left (by rw [List.length_append, hlen]; omega),
    List.getElem?_append_right (by rw [hlen]; omega), hlen, Nat.add_sub_cancel_left]

theorem getD_take_lt (l : List Nat) {n i : Nat} (h : i < n) :
    (l.take n).getD i 0 = l.getD i 0 := by
  rw [List.getD_eq_getElem?_getD, List.getD_eq_getElem?_getD, List.getElem?_take,
    if_pos h]

theorem take_set_of_le (l : List Nat) {n i : Nat} (v : Nat) (h : n ≤ i) :
    (l.set i v).take n = l.take n := by
  apply List.ext_getElem?
  intro m
  rw [List.getElem?_take, List.getElem?_take]
  by_cases hm : m < n
  · rw [if_pos hm, if_pos hm, List.getElem?_set_ne (by omega)]
  · rw [if_neg hm, if_neg hm]

theorem take_writeLE16_of_le (l : List Nat) {n i : Nat} (v : Nat) (h : n ≤ i) :
    (writeLE16 l i v).take n = l.take n := by
  unfold writeLE16
  rw [take_set_of_le _ _ (by omega), take_set_of_le _ _ h]

theorem readLE32_eq_of_getD (l₁ l₂ : List Nat) (i : Nat)
    (h0 : l₁.getD i 0 = l₂.getD i 0) (h1 : l₁.getD (i + 1) 0 = l₂.getD (i + 1) 0)
    (h2 : l₁.getD (i + 2) 0 = l₂.getD (i + 2) 0)
    (h3 : l₁.getD (i + 3) 0 = l₂.getD (i + 3) 0) :
    readLE32 l₁ i = readLE32 l₂ i := by
  unfold readLE32; rw [h0, h1, h2, h3]

theorem drop_take_eq_of_getD (l : List Nat) (i k : Nat) (m : List Nat)
    (hm : m.length = k) (hik : i + k ≤ l.length)
    (h : ∀ j, j < k → l.getD (i + j) 0 = m.getD j 0) :
    (l.drop i).take k = m := by
  apply List.ext_getElem?
  intro n
  rw [List.getElem?_take]
  by_cases hn : n < k
  · rw [if_pos hn, List.getElem?_drop]
    have h1 : i + n < l.length := by omega
    have h2 : n < m.length := by omega
    rw [List.getElem?_eq_getElem h1, List.getElem?_eq_getElem h2]
    have := h n hn
    rw [List.getD_eq_getElem l 0 h1, List.getD_eq_getElem m 0 h2] at this
    rw [this]
  · rw [if_neg hn, Eq.comm]
    exact List.getElem?_eq_none (by omega)

/-! ## CRC-16 bound -/

theorem crcTable_getD_lt (k : Nat) : crcTable.getD k 0 < 65536 := by
  rcases Nat.lt_or_ge k 16 with h | h
  · unfold crcTable
    interval_cases k <;> decide
  · rw [List.getD_eq_getElem?_getD, List.getElem?_eq_none (by unfold crcTable; simp; omega)]
    norm_num

theorem crc16Step_lt (crc b : Nat) : crc16Step crc b < 65536 := by
  unfold crc16Step
  have h4096 : ∀ x : Nat, (x >>> 4) &&& 0x0FFF < 65536 :=
    fun x => lt_of_le_of_lt Nat.and_le_right (by norm_num)
  have hx : ∀ x y z : Nat, x < 65536 → y < 65536 → z < 65536 → x ^^^ y ^^^ z < 65536 := by
    intro x y z hxl hyl hzl
    have e : (65536 : Nat) = 2 ^ 16 := by norm_num
    rw [e] at hxl hyl hzl ⊢
    exact Nat.xor_lt_two_pow (Nat.xor_lt_two_pow hxl hyl) hzl
  exact hx _ _ _ (h4096 _) (crcTable_getD_lt _) (crcTable_getD_lt _)

theorem calculateCrc16_lt (l : List Nat) : calculateCrc16 l < 65536 := by
  unfold calculateCrc16
  have : ∀ (l : List Nat) (acc : Nat), acc < 65536 → l.foldl crc16Step acc < 65536 := by
    intro l
    induction l with
    | nil => intro acc h; simpa using h
    | cons b rest ih => intro acc _; exact ih (crc16Step acc b) (crc16Step_lt acc b)
  exact this l 0 (by norm_num)

/-! ## `readFields` lemmas -/

theorem readFields_pos_le (data : List Nat) :
    ∀ (n : Nat) (pos : Nat), pos ≤ (readFields data pos n).2 := by
  intro n
  induction n with
  | zero => intro pos; exact Nat.le_refl _
  | succ m ih =>
    intro pos
    rw [readFields]
    split
    · exact Nat.le_refl _
    · exact le_trans (by omega) (ih (pos + 3))

theorem readFields_full (data : List Nat) :
    ∀ (n : Nat) (pos : Nat), pos + 3 * n ≤ data.length →
    (readFields data pos n).1.length = n ∧ (readFields data pos n).2 = pos + 3 * n := by
  intro n
  induction n with
  | zero => intro pos _; rw [readFields]; exact ⟨rfl, by simp⟩
  | succ m ih =>
    intro pos h
    rw [readFields]
    rw [if_neg (by omega)]
    have := ih (pos + 3) (by omega)
    refine ⟨by simpa using this.1, by simp only; rw [this.2]; omega⟩

theorem readFields_short (data : List Nat) :
    ∀ (n : Nat) (pos : Nat), pos ≤ data.length → data.length < pos + 3 * n →
    (readFields data pos n).1.length < n := by
  intro n
  induction n with
  | zero => intro pos h1 h2; omega
  | succ m ih =>
    intro pos h1 h2
    rw [readFields]
    by_cases hc : data.length < pos + 3
    · rw [if_pos hc]
      simp
    · rw [if_neg hc]
      have := ih (pos + 3) (by omega) (by omega)
      simpa using this

theorem readFields_trunc_pos (data : List Nat) :
    ∀ (n : Nat) (pos : Nat), (readFields data pos n).1.length < n →
    data.length < (readFields data pos n).2 + 3 := by
  intro n
  induction n with
  | zero =>
    intro pos h
    rw [readFields] at h
    simp at h
  | succ m ih =>
    intro pos h
    rw [readFields] at h ⊢
    by_cases hc : data.length < pos + 3
    · rw [if_pos hc] at h ⊢
      omega
    · rw [if_neg hc] at h ⊢
      simp only at h ⊢
      exact ih (pos + 3) (by simpa using h)

/-! ## Patch-loop lemmas -/

/-- Index `i` is covered by none of the recorded patch intervals. -/
def outside (ps : List (Nat × Nat)) (i : Nat) : Prop :=
  ∀ pw ∈ ps, i < pw.1 ∨ pw.1 + pw.2 ≤ i

theorem outside_append {ps₁ ps₂ : List (Nat × Nat)} {i : Nat}
    (h : outside (ps₁ ++ ps₂) i) : outside ps₁ i ∧ outside ps₂ i := by
  constructor
  · intro pw hm; exact h pw (List.mem_append.mpr (Or.inl hm))
  · intro pw hm; exact h pw (List.mem_append.mpr (Or.inr hm))

theorem patchFileId_length (pos : Nat) :
    ∀ (fields : List (Nat × Nat × Nat)) (data : List Nat) (off : Nat) (mc : Bool)
      (ps : List (Nat × Nat)),
    (patchFileId pos data fields off mc ps).1.length = data.length := by
  intro fields
  induction fields with
  | nil => intro data off mc ps; rfl
  | cons f rest ih =>
    intro data off mc ps
    rw [patchFileId]
    split_ifs with h1 h2 h3 h4
    · rfl
    · rw [ih]; rw [List.length_set]
    · rw [ih]; rw [length_writeLE16]
    · rw [ih]; rw [length_writeLE16]
    · exact ih data (off + f.2.1) mc ps

theorem patchDeviceInfo_length (pos : Nat) :
    ∀ (fields : List (Nat × Nat × Nat)) (data : List Nat) (off : Nat) (mc : Bool)
      (ps : List (Nat × Nat)),
    (patchDeviceInfo pos data fields off mc ps).1.length = data.length := by
  intro fields
  induction fields with
  | nil => intro data off mc ps; rfl
  | cons f rest ih =>
    intro data off mc ps
    rw [patchDeviceInfo]
    split_ifs with h1 h2 h3
    · rfl
    · rw [ih]; rw [length_writeLE16]
    · rw [ih]; rw [length_writeLE16]
    · exact ih data (off + f.2.1) mc ps

theorem patchFileId_preserve_lt (pos : Nat) :
    ∀ (fields : List (Nat × Nat × Nat)) (data : List Nat) (off : Nat) (mc : Bool)
      (ps : List (Nat × Nat)) (i : Nat), i < pos + off →
    (patchFileId pos data fields off mc ps).1.getD i 0 = data.getD i 0 := by
  intro fields
  induction fields with
  | nil => intro data off mc ps i _; rfl
  | cons f rest ih =>
    intro data off mc ps i hi
    rw [patchFileId]
    split_ifs with h1 h2 h3 h4
    · rfl
    · rw [ih _ _ _ _ _ (by omega), getD_set_ne _ _ (by omega)]
    · rw [ih _ _ _ _ _ (by omega), getD_writeLE16_ne _ _ _ (by omega) (by omega)]
    · rw [ih _ _ _ _ _ (by omega), getD_writeLE16_ne _ _ _ (by omega) (by omega)]
    · exact ih _ _ _ _ _ (by omega)

theorem patchDeviceInfo_preserve_lt (pos : Nat) :
    ∀ (fields : List (Nat × Nat × Nat)) (data : List Nat) (off : Nat) (mc : Bool)
      (ps : List (Nat × Nat)) (i : Nat), i < pos + off →
    (patchDeviceInfo pos data fields off mc ps).1.getD i 0 = data.getD i 0 := by
  intro fields
  induction fields with
  | nil => intro data off mc ps i _; rfl
  | cons f rest ih =>
    intro data off mc ps i hi
    rw [patchDeviceInfo]
    split_ifs with h1 h2 h3
    · rfl
    · rw [ih _ _ _ _ _ (by omega), getD_writeLE16_ne _ _ _ (by omega) (by omega)]
    · rw [ih _ _ _ _ _ (by omega), getD_writeLE16_ne _ _ _ (by omega) (by omega)]
    · exact ih _ _ _ _ _ (by omega)

theorem patchFileId_patches (pos : Nat) :
    ∀ (fields : List (Nat × Nat × Nat)) (data : List Nat) (off : Nat) (mc : Bool)
      (ps : List (Nat × Nat)),
    ∃ new, (patchFileId pos data fields off mc ps).2.2 = new ++ ps ∧
      ∀ pw ∈ new, pos + off ≤ pw.1 ∧ (pw.2 = 1 ∨ pw.2 = 2) ∧ pw.1 + pw.2 ≤ data.length := by
  intro fields
  induction fields with
  | nil => intro data off mc ps; exact ⟨[], rfl, by simp⟩
  | cons f rest ih =>
    intro data off mc ps
    rw [patchFileId]
    split_ifs with h1 h2 h3 h4
    · exact ⟨[], rfl, by simp⟩
    · obtain ⟨new, hn, hb⟩ := ih (data.set (pos + off) 4) (off + f.2.1) mc ((pos + off, 1) :: ps)
      refine ⟨new ++ [(pos + off, 1)], by rw [hn]; simp, ?_⟩
      intro pw hm
      rcases List.mem_append.mp hm with hm | hm
      · have := hb pw hm
        rw [List.length_set] at this
        exact ⟨by omega, this.2.1, this.2.2⟩
      · simp at hm
        subst hm
        exact ⟨by omega, Or.inl rfl, by omega⟩
    · obtain ⟨new, hn, hb⟩ := ih (writeLE16 data (pos + off) 1) (off + f.2.1) true ((pos + off, 2) :: ps)
      refine ⟨new ++ [(pos + off, 2)], by rw [hn]; simp, ?_⟩
      intro pw hm
      rcases List.mem_append.mp hm with hm | hm
      · have := hb pw hm
        rw [length_writeLE16] at this
        exact ⟨by omega, this.2.1, this.2.2⟩
      · simp at hm
        subst hm
        exact ⟨by omega, Or.inr rfl, by omega⟩
    · obtain ⟨new, hn, hb⟩ := ih (writeLE16 data (pos + off) 3122) (off + f.2.1) mc ((pos + off, 2) :: ps)
      refine ⟨new ++ [(pos + off, 2)], by rw [hn]; simp, ?_⟩
      intro pw hm
      rcases List.mem_append.mp hm with hm | hm
      · have := hb pw hm
        rw [length_writeLE16] at this
        exact ⟨by omega, this.2.1, this.2.2⟩
      · simp at hm
        subst hm
        exact ⟨by omega, Or.inr rfl, by omega⟩
    · obtain ⟨new, hn, hb⟩ := ih data (off + f.2.1) mc ps
      refine ⟨new, hn, ?_⟩
      intro pw hm
      have := hb pw hm
      exact ⟨by omega, this.2.1, this.2.2⟩

theorem patchDeviceInfo_patches (pos : Nat) :
    ∀ (fields : List (Nat × Nat × Nat)) (data : List Nat) (off : Nat) (mc : Bool)
      (ps : List (Nat × Nat)),
    ∃ new, (patchDeviceInfo pos data fields off mc ps).2.2 = new ++ ps ∧
      ∀ pw ∈ new, pos + off ≤ pw.1 ∧ (pw.2 = 1 ∨ pw.2 = 2) ∧ pw.1 + pw.2 ≤ data.length := by
  intro fields
  induction fields with
  | nil => intro data off mc ps; exact ⟨[], rfl, by simp⟩
  | cons f rest ih =>
    intro data off mc ps
    rw [patchDeviceInfo]
    split_ifs with h1 h2 h3
    · exact ⟨[], rfl, by simp⟩
    · obtain ⟨new, hn, hb⟩ := ih (writeLE16 data (pos + off) 1) (off + f.2.1) true ((pos + off, 2) :: ps)
      refine ⟨new ++ [(pos + off, 2)], by rw [hn]; simp, ?_⟩
      intro pw hm
      rcases List.mem_append.mp hm with hm | hm
      · have := hb pw hm
        rw [length_writeLE16] at this
        exact ⟨by omega, this.2.1, this.2.2⟩
      · simp at hm
        subst hm
        exact ⟨by omega, Or.inr rfl, by omega⟩
    · obtain ⟨new, hn, hb⟩ := ih (writeLE16 data (pos + off) 3122) (off + f.2.1) mc ((pos + off, 2) :: ps)
      refine ⟨new ++ [(pos + off, 2)], by rw [hn]; simp, ?_⟩
      intro pw hm
      rcases List.mem_append.mp hm with hm | hm
      · have := hb pw hm
        rw [length_writeLE16] at this
        exact ⟨by omega, this.2.1, this.2.2⟩
      · simp at hm
        subst hm
        exact ⟨by omega, Or.inr rfl, by omega⟩
    · obtain ⟨new, hn, hb⟩ := ih data (off + f.2.1) mc ps
      refine ⟨new, hn, ?_⟩
      intro pw hm
      have := hb pw hm
      exact ⟨by omega, this.2.1, this.2.2⟩

theorem patchFileId_frame (pos : Nat) :
    ∀ (fields : List (Nat × Nat × Nat)) (data : List Nat) (off : Nat) (mc : Bool)
      (ps : List (Nat × Nat)) (i : Nat),
    outside (patchFileId pos data fields off mc ps).2.2 i →
    (patchFileId pos data fields off mc ps).1.getD i 0 = data.getD i 0 := by
  intro fields
  induction fields with
  | nil => intro data off mc ps i _; rfl
  | cons f rest ih =>
    intro data off mc ps i ho
    rw [patchFileId] at ho ⊢
    split_ifs at ho ⊢ with h1 h2 h3 h4
    · rfl
    · obtain ⟨new, hn, _⟩ := patchFileId_patches pos rest (data.set (pos + off) 4)
        (off + f.2.1) mc ((pos + off, 1) :: ps)
      have hm : (pos + off, 1) ∈ (patchFileId pos (data.set (pos + off) 4) rest
          (off + f.2.1) mc ((pos + off, 1) :: ps)).2.2 := by
        rw [hn]; exact List.mem_append.mpr (Or.inr (List.mem_cons_self _ _))
      have hout := ho _ hm
      simp only at hout
      rw [ih _ _ _ _ _ ho, getD_set_ne _ _ (by omega)]
    · obtain ⟨new, hn, _⟩ := patchFileId_patches pos rest (writeLE16 data (pos + off) 1)
        (off + f.2.1) true ((pos + off, 2) :: ps)
      have hm : (pos + off, 2) ∈ (patchFileId pos (writeLE16 data (pos + off) 1) rest
          (off + f.2.1) true ((pos + off, 2) :: ps)).2.2 := by
        rw [hn]; exact List.mem_append.mpr (Or.inr (List.mem_cons_self _ _))
      have hout := ho _ hm
      simp only at hout
      rw [ih _ _ _ _ _ ho, getD_writeLE16_ne _ _ _ (by omega) (by omega)]
    · obtain ⟨new, hn, _⟩ := patchFileId_patches pos rest (writeLE16 data (pos + off) 3122)
        (off + f.2.1) mc ((pos + off, 2) :: ps)
      have hm : (pos + off, 2) ∈ (patchFileId pos (writeLE16 data (pos + off) 3122) rest
          (off + f.2.1) mc ((pos + off, 2) :: ps)).2.2 := by
        rw [hn]; exact List.mem_append.mpr (Or.inr (List.mem_cons_self _ _))
      have hout := ho _ hm
      simp only at hout
      rw [ih _ _ _ _ _ ho, getD_writeLE16_ne _ _ _ (by omega) (by omega)]
    · exact ih _ _ _ _ _ ho

theorem patchDeviceInfo_frame (pos : Nat) :
    ∀ (fields : List (Nat × Nat × Nat)) (data : List Nat) (off : Nat) (mc : Bool)
      (ps : List (Nat × Nat)) (i : Nat),
    outside (patchDeviceInfo pos data fields off mc ps).2.2 i →
    (patchDeviceInfo pos data fields off mc ps).1.getD i 0 = data.getD i 0 := by
  intro fields
  induction fields with
  | nil => intro data off mc ps i _; rfl
  | cons f rest ih =>
    intro data off mc ps i ho
    rw [patchDeviceInfo] at ho ⊢
    split_ifs at ho ⊢ with h1 h2 h3
    · rfl
    · obtain ⟨new, hn, _⟩ := patchDeviceInfo_patches pos rest (writeLE16 data (pos + off) 1)
        (off + f.2.1) true ((pos + off, 2) :: ps)
      have hm : (pos + off, 2) ∈ (patchDeviceInfo pos (writeLE16 data (pos + off) 1) rest
          (off + f.2.1) true ((pos + off, 2) :: ps)).2.2 := by
        rw [hn]; exact List.mem_append.mpr (Or.inr (List.mem_cons_self _ _))
      have hout := ho _ hm
      simp only at hout
      rw [ih _ _ _ _ _ ho, getD_writeLE16_ne _ _ _ (by omega) (by omega)]
    · obtain ⟨new, hn, _⟩ := patchDeviceInfo_patches pos rest (writeLE16 data (pos + off) 3122)
        (off + f.2.1) mc ((pos + off, 2) :: ps)
      have hm : (pos + off, 2) ∈ (patchDeviceInfo pos (writeLE16 data (pos + off) 3122) rest
          (off + f.2.1) mc ((pos + off, 2) :: ps)).2.2 := by
        rw [hn]; exact List.mem_append.mpr (Or.inr (List.mem_cons_self _ _))
      have hout := ho _ hm
      simp only at hout
      rw [ih _ _ _ _ _ ho, getD_writeLE16_ne _ _ _ (by omega) (by omega)]
    · exact ih _ _ _ _ _ ho

theorem patchFileId_mc (pos : Nat) :
    ∀ (fields : List (Nat × Nat × Nat)) (data : List Nat) (off : Nat) (mc : Bool)
      (ps : List (Nat × Nat)),
    (patchFileId pos data fields off mc ps).2.1 = true →
    mc = true ∨ pos + 2 ≤ data.length := by
  intro fields
  induction fields with
  | nil => intro data off mc ps h; exact Or.inl h
  | cons f rest ih =>
    intro data off mc ps h
    rw [patchFileId] at h
    split_ifs at h with h1 h2 h3 h4
    · exact Or.inl h
    · rcases ih _ _ _ _ h with h' | h'
      · exact Or.inl h'
      · rw [List.length_set] at h'; exact Or.inr h'
    · right; omega
    · rcases ih _ _ _ _ h with h' | h'
      · exact Or.inl h'
      · rw [length_writeLE16] at h'; exact Or.inr h'
    · exact ih _ _ _ _ h

theorem patchDeviceInfo_mc (pos : Nat) :
    ∀ (fields : List (Nat × Nat × Nat)) (data : List Nat) (off : Nat) (mc : Bool)
      (ps : List (Nat × Nat)),
    (patchDeviceInfo pos data fields off mc ps).2.1 = true →
    mc = true ∨ pos + 2 ≤ data.length := by
  intro fields
  induction fields with
  | nil => intro data off mc ps h; exact Or.inl h
  | cons f rest ih =>
    intro data off mc ps h
    rw [patchDeviceInfo] at h
    split_ifs at h with h1 h2 h3
    · exact Or.inl h
    · right; omega
    · rcases ih _ _ _ _ h with h' | h'
      · exact Or.inl h'
      · rw [length_writeLE16] at h'; exact Or.inr h'
    · exact ih _ _ _ _ h

theorem patchFileId_value (pos : Nat) :
    ∀ (fields : List (Nat × Nat × Nat)) (j : Nat) (data : List Nat) (off : Nat)
      (mc : Bool) (ps : List (Nat × Nat)),
    j < fields.length →
    pos + off + sumSizes fields ≤ data.length →
    ((fields.getD j (0, 0, 0)).1 = 0 ∧ (fields.getD j (0, 0, 0)).2.1 = 1 →
      (patchFileId pos data fields off mc ps).1.getD
        (pos + off + sumSizes (fields.take j)) 0 = 4) ∧
    ((fields.getD j (0, 0, 0)).1 = 1 ∧ (fields.getD j (0, 0, 0)).2.1 = 2 →
      readLE16 (patchFileId pos data fields off mc ps).1
        (pos + off + sumSizes (fields.take j)) = 1) ∧
    ((fields.getD j (0, 0, 0)).1 = 2 ∧ (fields.getD j (0, 0, 0)).2.1 = 2 →
      readLE16 (patchFileId pos data fields off mc ps).1
        (pos + off + sumSizes (fields.take j)) = 3122) := by
  intro fields
  induction fields with
  | nil => intro j data off mc ps hj _; simp at hj
  | cons f rest ih =>
    intro j data off mc ps hj hlen
    have hsum : sumSizes (f :: rest) = f.2.1 + sumSizes rest := rfl
    match j with
    | 0 =>
      have htk : sumSizes ((f :: rest).take 0) = 0 := rfl
      rw [List.getD_cons_zero, htk, Nat.add_zero]
      rw [patchFileId]
      rw [if_neg (by omega)]
      split_ifs with h2 h3 h4
      · refine ⟨fun _ => ?_, fun hx => absurd hx (by omega), fun hx => absurd hx (by omega)⟩
        have hpre := patchFileId_preserve_lt pos rest (data.set (pos + off) 4)
          (off + f.2.1) mc ((pos + off, 1) :: ps) (pos + off) (by omega)
        rw [hpre]
        exact getD_set_self data 4 (by omega)
      · refine ⟨fun hx => absurd hx (by omega), fun _ => ?_, fun hx => absurd hx (by omega)⟩
        have hr : readLE16 (writeLE16 data (pos + off) 1) (pos + off) = 1 :=
          readLE16_writeLE16_self data (pos + off) 1 (by omega) (by norm_num)
        exact (readLE16_eq_of_getD _ _ _
          (patchFileId_preserve_lt pos rest (writeLE16 data (pos + off) 1)
            (off + f.2.1) true ((pos + off, 2) :: ps) (pos + off) (by omega))
          (patchFileId_preserve_lt pos rest (writeLE16 data (pos + off) 1)
            (off + f.2.1) true ((pos + off, 2) :: ps) (pos + off + 1) (by omega))).trans hr
      · refine ⟨fun hx => absurd hx (by omega), fun hx => absurd hx (by omega), fun _ => ?_⟩
        have hr : readLE16 (writeLE16 data (pos + off) 3122) (pos + off) = 3122 :=
          readLE16_writeLE16_self data (pos + off) 3122 (by omega) (by norm_num)
        exact (readLE16_eq_of_getD _ _ _
          (patchFileId_preserve_lt pos rest (writeLE16 data (pos + off) 3122)
            (off + f.2.1) mc ((pos + off, 2) :: ps) (pos + off) (by omega))
          (patchFileId_preserve_lt pos rest (writeLE16 data (pos + off) 3122)
            (off + f.2.1) mc ((pos + off, 2) :: ps) (pos + off + 1) (by omega))).trans hr
      · exact ⟨fun hx => absurd hx h2, fun hx => absurd hx h3, fun hx => absurd hx h4⟩
    | k + 1 =>
      have htk : sumSizes ((f :: rest).take (k + 1)) = f.2.1 + sumSizes (rest.take k) := rfl
      rw [List.getD_cons_succ, htk]
      have harr : pos + off + (f.2.1 + sumSizes (rest.take k)) =
          pos + (off + f.2.1) + sumSizes (rest.take k) := by omega
      rw [harr]
      rw [patchFileId]
      rw [if_neg (by omega)]
      have hj' : k < rest.length := by simpa using hj
      split_ifs with h2 h3 h4
      · exact ih k _ (off + f.2.1) mc _ hj' (by rw [List.length_set]; omega)
      · exact ih k _ (off + f.2.1) true _ hj' (by rw [length_writeLE16]; omega)
      · exact ih k _ (off + f.2.1) mc _ hj' (by rw [length_writeLE16]; omega)
      · exact ih k _ (off + f.2.1) mc _ hj' (by omega)

/-! ## Step lemmas -/

theorem defStep_data (s : ScanState) (hb : Nat) : (defStep s hb).1.data = s.data := by
  simp only [defStep]
  split_ifs <;> rfl

theorem defStep_patches (s : ScanState) (hb : Nat) :
    (defStep s hb).1.patches = s.patches := by
  simp only [defStep]
  split_ifs <;> rfl

theorem defStep_mc (s : ScanState) (hb : Nat) :
    (defStep s hb).1.manufacturerChanged = s.manufacturerChanged := by
  simp only [defStep]
  split_ifs <;> rfl

theorem defStep_pos_lt (s : ScanState) (hb : Nat) : s.pos < (defStep s hb).1.pos := by
  simp only [defStep]
  split_ifs
  all_goals
    first
    | exact Nat.lt_succ_self _
    | exact lt_of_lt_of_le (show s.pos < s.pos + 1 + 5 by omega)
        (readFields_pos_le s.data _ _)

theorem dataStep_pos_lt (s : ScanState) (hb : Nat) : s.pos < (dataStep s hb).1.pos := by
  rw [dataStep]
  rcases hd : s.defs (hb &&& 0x0F) with _ | dfn
  · simp only [hd]
    omega
  · simp only [hd]
    split_ifs <;> (simp only; omega)

theorem dataStep_data_length (s : ScanState) (hb : Nat) :
    (dataStep s hb).1.data.length = s.data.length := by
  rw [dataStep]
  rcases hd : s.defs (hb &&& 0x0F) with _ | dfn
  · simp only [hd]
  · simp only [hd]
    split_ifs
    · simp only
      exact patchFileId_length _ _ _ _ _ _
    · simp only
      exact patchDeviceInfo_length _ _ _ _ _ _
    · rfl

theorem scanStep_pos_lt (s : ScanState) : s.pos < (scanStep s).1.pos := by
  rw [scanStep]
  split_ifs
  · exact defStep_pos_lt s _
  · exact dataStep_pos_lt s _

theorem scanStep_data_length (s : ScanState) :
    (scanStep s).1.data.length = s.data.length := by
  rw [scanStep]
  split_ifs
  · rw [defStep_data]
  · exact dataStep_data_length s _

theorem dataStep_patches (s : ScanState) (hb : Nat) :
    ∃ new, (dataStep s hb).1.patches = new ++ s.patches ∧
      ∀ pw ∈ new, s.pos + 1 ≤ pw.1 ∧ (pw.2 = 1 ∨ pw.2 = 2) ∧ pw.1 + pw.2 ≤ s.data.length := by
  rw [dataStep]
  rcases hd : s.defs (hb &&& 0x0F) with _ | dfn
  · exact ⟨[], rfl, by simp⟩
  · simp only [hd]
    split_ifs
    · simp only
      obtain ⟨new, hn, hb'⟩ := patchFileId_patches (s.pos + 1) dfn.fields s.data 0
        s.manufacturerChanged s.patches
      exact ⟨new, hn, fun pw hm => ⟨by have := (hb' pw hm).1; omega, (hb' pw hm).2.1,
        (hb' pw hm).2.2⟩⟩
    · simp only
      obtain ⟨new, hn, hb'⟩ := patchDeviceInfo_patches (s.pos + 1) dfn.fields s.data 0
        s.manufacturerChanged s.patches
      exact ⟨new, hn, fun pw hm => ⟨by have := (hb' pw hm).1; omega, (hb' pw hm).2.1,
        (hb' pw hm).2.2⟩⟩
    · exact ⟨[], rfl, by simp⟩

theorem scanStep_patches (s : ScanState) :
    ∃ new, (scanStep s).1.patches = new ++ s.patches ∧
      ∀ pw ∈ new, s.pos + 1 ≤ pw.1 ∧ (pw.2 = 1 ∨ pw.2 = 2) ∧ pw.1 + pw.2 ≤ s.data.length := by
  rw [scanStep]
  split_ifs
  · exact ⟨[], by rw [defStep_patches]; simp, by simp⟩
  · exact dataStep_patches s _

theorem dataStep_frame (s : ScanState) (hb : Nat) (i : Nat)
    (ho : outside (dataStep s hb).1.patches i) :
    (dataStep s hb).1.data.getD i 0 = s.data.getD i 0 := by
  rw [dataStep] at ho ⊢
  rcases hd : s.defs (hb &&& 0x0F) with _ | dfn
  · simp only [hd]
  · simp only [hd] at ho ⊢
    split_ifs at ho ⊢
    · simp only at ho ⊢
      exact patchFileId_frame _ _ _ _ _ _ _ ho
    · simp only at ho ⊢
      exact patchDeviceInfo_frame _ _ _ _ _ _ _ ho
    · rfl

theorem scanStep_frame (s : ScanState) (i : Nat)
    (ho : outside (scanStep s).1.patches i) :
    (scanStep s).1.data.getD i 0 = s.data.getD i 0 := by
  rw [scanStep] at ho ⊢
  split_ifs at ho ⊢
  · rw [defStep_data]
  · exact dataStep_frame s _ i ho

theorem dataStep_data_lower (s : ScanState) (hb : Nat) (i : Nat) (hi : i ≤ s.pos) :
    (dataStep s hb).1.data.getD i 0 = s.data.getD i 0 := by
  rw [dataStep]
  rcases hd : s.defs (hb &&& 0x0F) with _ | dfn
  · simp only [hd]
  · simp only [hd]
    split_ifs
    · simp only
      exact patchFileId_preserve_lt _ _ _ _ _ _ _ (by omega)
    · simp only
      exact patchDeviceInfo_preserve_lt _ _ _ _ _ _ _ (by omega)
    · rfl

theorem scanStep_data_lower (s : ScanState) (i : Nat) (hi : i ≤ s.pos) :
    (scanStep s).1.data.getD i 0 = s.data.getD i 0 := by
  rw [scanStep]
  split_ifs
  · rw [defStep_data]
  · exact dataStep_data_lower s _ i hi

/-! ## Loop lemmas -/

theorem scanLoop_cond_false (endPos fuel : Nat) (s : ScanState)
    (h : ¬(s.pos < endPos ∧ s.pos < s.data.length)) :
    scanLoop endPos fuel s = (s, .endOfStream) := by
  cases fuel with
  | zero => rfl
  | succ f => rw [scanLoop, if_neg h]

theorem scanLoop_fuel_irrel (endPos : Nat) :
    ∀ (fuel₁ fuel₂ : Nat) (s : ScanState), endPos ≤ s.pos + fuel₁ → endPos ≤ s.pos + fuel₂ →
    scanLoop endPos fuel₁ s = scanLoop endPos fuel₂ s := by
  intro fuel₁
  induction fuel₁ with
  | zero =>
    intro fuel₂ s h1 _
    rw [scanLoop_cond_false endPos 0 s (by omega), scanLoop_cond_false endPos fuel₂ s (by omega)]
  | succ f ih =>
    intro fuel₂ s h1 h2
    by_cases hc : s.pos < endPos ∧ s.pos < s.data.length
    · cases fuel₂ with
      | zero => omega
      | succ f₂ =>
        rw [scanLoop, scanLoop, if_pos hc, if_pos hc]
        rcases hss : scanStep s with ⟨s', r⟩
        have hlt : s.pos < s'.pos := by
          have := scanStep_pos_lt s
          rw [hss] at this
          exact this
        cases r with
        | none => exact ih f₂ s' (by omega) (by omega)
        | some r => rfl
    · rw [scanLoop_cond_false endPos _ s hc, scanLoop_cond_false endPos _ s hc]

theorem scanLoop_data_length (endPos : Nat) :
    ∀ (fuel : Nat) (s : ScanState),
    (scanLoop endPos fuel s).1.data.length = s.data.length := by
  intro fuel
  induction fuel with
  | zero => intro s; rfl
  | succ f ih =>
    intro s
    rw [scanLoop]
    split_ifs with hc
    · rcases hss : scanStep s with ⟨s', r⟩
      have hdl : s'.data.length = s.data.length := by
        have := scanStep_data_length s
        rw [hss] at this
        exact this
      cases r with
      | none =>
        simp only
        rw [ih s', hdl]
      | some r => exact hdl
    · rfl

theorem scanLoop_pos_le (endPos : Nat) :
    ∀ (fuel : Nat) (s : ScanState), s.pos ≤ (scanLoop endPos fuel s).1.pos := by
  intro fuel
  induction fuel with
  | zero => intro s; exact Nat.le_refl _
  | succ f ih =>
    intro s
    rw [scanLoop]
    split_ifs with hc
    · rcases hss : scanStep s with ⟨s', r⟩
      have hlt : s.pos < s'.pos := by
        have := scanStep_pos_lt s
        rw [hss] at this
        exact this
      cases r with
      | none => exact le_trans (by omega) (ih s')
      | some r => exact le_of_lt hlt
    · exact Nat.le_refl _

theorem scanLoop_patches (endPos : Nat) :
    ∀ (fuel : Nat) (s : ScanState),
    ∃ new, (scanLoop endPos fuel s).1.patches = new ++ s.patches ∧
      ∀ pw ∈ new, s.pos + 1 ≤ pw.1 ∧ (pw.2 = 1 ∨ pw.2 = 2) ∧ pw.1 + pw.2 ≤ s.data.length := by
  intro fuel
  induction fuel with
  | zero => intro s; exact ⟨[], rfl, by simp⟩
  | succ f ih =>
    intro s
    rw [scanLoop]
    split_ifs with hc
    · rcases hss : scanStep s with ⟨s', r⟩
      obtain ⟨new₁, hn₁, hb₁⟩ := scanStep_patches s
      rw [hss] at hn₁
      have hlt : s.pos < s'.pos := by
        have := scanStep_pos_lt s
        rw [hss] at this
        exact this
      have hdl : s'.data.length = s.data.length := by
        have := scanStep_data_length s
        rw [hss] at this
        exact this
      cases r with
      | none =>
        simp only
        obtain ⟨new₂, hn₂, hb₂⟩ := ih s'
        refine ⟨new₂ ++ new₁, by rw [hn₂, hn₁, List.append_assoc], ?_⟩
        intro pw hm
        rcases List.mem_append.mp hm with hm | hm
        · have := hb₂ pw hm
          exact ⟨by omega, this.2.1, by omega⟩
        · exact hb₁ pw hm
      | some r => exact ⟨new₁, hn₁, hb₁⟩
    · exact ⟨[], rfl, by simp⟩

theorem scanLoop_frame (endPos : Nat) :
    ∀ (fuel : Nat) (s : ScanState) (i : Nat),
    outside (scanLoop endPos fuel s).1.patches i →
    (scanLoop endPos fuel s).1.data.getD i 0 = s.data.getD i 0 := by
  intro fuel
  induction fuel with
  | zero => intro s i _; rfl
  | succ f ih =>
    intro s i ho
    rw [scanLoop] at ho ⊢
    split_ifs at ho ⊢ with hc
    · rcases hss : scanStep s with ⟨s', r⟩
      rw [hss] at ho
      have hframe : outside (scanStep s).1.patches i →
          (scanStep s).1.data.getD i 0 = s.data.getD i 0 := scanStep_frame s i
      rw [hss] at hframe
      cases r with
      | none =>
        simp only at ho ⊢
        obtain ⟨new₂, hn₂, _⟩ := scanLoop_patches endPos f s'
        have ho' : outside s'.patches i := by
          intro pw hm
          exact ho pw (by rw [hn₂]; exact List.mem_append.mpr (Or.inr hm))
        rw [ih s' i ho]
        exact hframe ho'
      | some r => exact hframe ho
    · rfl

theorem scanLoop_data_lower (endPos : Nat) :
    ∀ (fuel : Nat) (s : ScanState) (i : Nat), i ≤ s.pos →
    (scanLoop endPos fuel s).1.data.getD i 0 = s.data.getD i 0 := by
  intro fuel
  induction fuel with
  | zero => intro s i _; rfl
  | succ f ih =>
    intro s i hi
    rw [scanLoop]
    split_ifs with hc
    · rcases hss : scanStep s with ⟨s', r⟩
      have hlow : (scanStep s).1.data.getD i 0 = s.data.getD i 0 :=
        scanStep_data_lower s i hi
      rw [hss] at hlow
      have hlt : s.pos < s'.pos := by
        have := scanStep_pos_lt s
        rw [hss] at this
        exact this
      cases r with
      | none =>
        simp only
        rw [ih s' i (by omega)]
        exact hlow
      | some r => exact hlow
    · rfl

/-! ## The scan invariant used for the checksum claim -/

/-- Invariant of the scanning loop: the position never drops below 12 (the
minimum header size), a stored definition forces the position past the first
definition record, and a manufacturer patch forces a buffer of at least 16
bytes (the patch write happens at offset ≥ 19 with 2 bytes of room). -/
def Inv (s : ScanState) : Prop :=
  12 ≤ s.pos ∧ ((∀ t, s.defs t = none) ∨ 18 ≤ s.pos) ∧
    (s.manufacturerChanged = true → 16 ≤ s.data.length)

theorem defStep_inv (s : ScanState) (hb : Nat) (h : Inv s) : Inv (defStep s hb).1 := by
  obtain ⟨h1, h2, h3⟩ := h
  simp only [defStep]
  split_ifs
  all_goals
    refine ⟨by first | exact le_trans h1 (Nat.le_succ _)
                     | exact le_trans (by omega) (readFields_pos_le s.data _ _), ?_, h3⟩
  · rcases h2 with h2 | h2
    · exact Or.inl h2
    · exact Or.inr (by simp only []; omega)
  all_goals
    exact Or.inr (le_trans (show 18 ≤ s.pos + 1 + 5 by omega) (readFields_pos_le s.data _ _))

theorem dataStep_inv (s : ScanState) (hb : Nat) (h : Inv s) : Inv (dataStep s hb).1 := by
  obtain ⟨h1, h2, h3⟩ := h
  rw [dataStep]
  rcases hd : s.defs (hb &&& 0x0F) with _ | dfn
  · simp only [hd]
    refine ⟨by simp only []; omega, ?_, h3⟩
    rcases h2 with h2 | h2
    · exact Or.inl h2
    · exact Or.inr (by simp only []; omega)
  · have h18 : 18 ≤ s.pos := by
      rcases h2 with h2 | h2
      · exact absurd hd (by rw [h2 (hb &&& 0x0F)]; simp)
      · exact h2
    simp only [hd]
    split_ifs
    · simp only
      refine ⟨by simp only []; omega, Or.inr (by simp only []; omega), ?_⟩
      intro hmc
      rcases patchFileId_mc (s.pos + 1) dfn.fields s.data 0 s.manufacturerChanged s.patches
        (by exact hmc) with h' | h'
      · rw [patchFileId_length]; exact h3 h'
      · rw [patchFileId_length]; omega
    · simp only
      refine ⟨by simp only []; omega, Or.inr (by simp only []; omega), ?_⟩
      intro hmc
      rcases patchDeviceInfo_mc (s.pos + 1) dfn.fields s.data 0 s.manufacturerChanged s.patches
        (by exact hmc) with h' | h'
      · rw [patchDeviceInfo_length]; exact h3 h'
      · rw [patchDeviceInfo_length]; omega
    · exact ⟨by simp only []; omega, Or.inr (by simp only []; omega), h3⟩

theorem scanStep_inv (s : ScanState) (h : Inv s) : Inv (scanStep s).1 := by
  rw [scanStep]
  split_ifs
  · exact defStep_inv s _ h
  · exact dataStep_inv s _ h

theorem scanLoop_inv (endPos : Nat) :
    ∀ (fuel : Nat) (s : ScanState), Inv s → Inv (scanLoop endPos fuel s).1 := by
  intro fuel
  induction fuel with
  | zero => intro s h; exact h
  | succ f ih =>
    intro s h
    rw [scanLoop]
    split_ifs with hc
    · rcases hss : scanStep s with ⟨s', r⟩
      have h' : Inv s' := by
        have := scanStep_inv s h
        rw [hss] at this
        exact this
      cases r with
      | none => exact ih s' h'
      | some r => exact h'
    · exact h

/-! ## `Reaches` lemmas -/

theorem reaches_pos_le {endPos : Nat} {s s' : ScanState} (h : Reaches endPos s s') :
    s.pos ≤ s'.pos := by
  induction h with
  | refl => exact Nat.le_refl _
  | step t t' t'' hc1 hc2 hss _ ih =>
    have := scanStep_pos_lt t
    rw [hss] at this
    simp only [] at this
    omega

theorem reaches_data_length {endPos : Nat} {s s' : ScanState} (h : Reaches endPos s s') :
    s'.data.length = s.data.length := by
  induction h with
  | refl => rfl
  | step t t' t'' hc1 hc2 hss _ ih =>
    have := scanStep_data_length t
    rw [hss] at this
    rw [ih, this]

theorem reaches_scanLoop {endPos : Nat} {s s' : ScanState} (h : Reaches endPos s s') :
    ∀ (fuel fuel' : Nat), endPos ≤ s.pos + fuel → endPos ≤ s'.pos + fuel' →
    scanLoop endPos fuel s = scanLoop endPos fuel' s' := by
  induction h with
  | refl s => exact fun fuel fuel' h1 h2 => scanLoop_fuel_irrel endPos fuel fuel' s h1 h2
  | step t t' t'' hc1 hc2 hss hr ih =>
    intro fuel fuel' h1 h2
    have hlt : t.pos < t'.pos := by
      have := scanStep_pos_lt t
      rw [hss] at this
      exact this
    cases fuel with
    | zero => omega
    | succ f =>
      rw [scanLoop, if_pos ⟨hc1, hc2⟩, hss]
      exact ih f fuel' (by omega) h2

theorem reaches_trans {endPos : Nat} {a b c : ScanState}
    (h1 : Reaches endPos a b) (h2 : Reaches endPos b c) : Reaches endPos a c := by
  induction h1 with
  | refl => exact h2
  | step x x' x'' hcx hcx2 hssx _ ih => exact Reaches.step x x' c hcx hcx2 hssx (ih h2)

theorem sumSizes_take_bound :
    ∀ (F : List (Nat × Nat × Nat)) (j : Nat), j < F.length →
    sumSizes (F.take j) + (F.getD j (0, 0, 0)).2.1 ≤ sumSizes F := by
  intro F
  induction F with
  | nil => intro j hj; simp at hj
  | cons f rest ih =>
    intro j hj
    match j with
    | 0 =>
      rw [List.getD_cons_zero]
      have e1 : sumSizes ((f :: rest).take 0) = 0 := rfl
      have e2 : sumSizes (f :: rest) = f.2.1 + sumSizes rest := rfl
      rw [e1, e2]
      omega
    | k + 1 =>
      rw [List.getD_cons_succ]
      have e1 : sumSizes ((f :: rest).take (k + 1)) = f.2.1 + sumSizes (rest.take k) := rfl
      have e2 : sumSizes (f :: rest) = f.2.1 + sumSizes rest := rfl
      rw [e1, e2]
      have := ih k (by simpa using hj)
      omega

/-- Evaluating the loop body at a complete `file_id` definition record: the
step stores `⟨0, F⟩` under the record's low nibble and moves to the end of the
field triples. -/
theorem scanStep_def_fileid (s : ScanState) (q : Nat) (F : List (Nat × Nat × Nat))
    (hdef : s.data.getD s.pos 0 &&& 0x80 = 0 ∧ s.data.getD s.pos 0 &&& 0x40 ≠ 0)
    (hfit : s.pos + 6 + 3 * s.data.getD (s.pos + 5) 0 ≤ s.data.length)
    (hgmn : readLE16 s.data (s.pos + 3) = 0)
    (hqdef : q = s.pos + 6 + 3 * s.data.getD (s.pos + 5) 0)
    (hF : F = (readFields s.data (s.pos + 6) (s.data.getD (s.pos + 5) 0)).1) :
    scanStep s = ({ s with
      pos := q,
      defs := (fun t => if t = s.data.getD s.pos 0 &&& 0x0F then some ⟨0, F⟩ else s.defs t) },
      none) := by
  simp only [scanStep]
  rw [if_pos hdef]
  simp only [defStep]
  have e14 : s.pos + 1 + 4 = s.pos + 5 := by omega
  have e15 : s.pos + 1 + 5 = s.pos + 6 := by omega
  have e12 : s.pos + 1 + 2 = s.pos + 3 := by omega
  rw [e14, e15, e12]
  rw [if_neg (show ¬(s.data.length ≤ s.pos + 5) by omega)]
  rw [hgmn]
  rw [if_neg (show (0 : Nat) ≠ 49 by omega)]
  rw [if_neg (show ¬((readFields s.data (s.pos + 6) (s.data.getD (s.pos + 5) 0)).1.length <
      s.data.getD (s.pos + 5) 0) by
    intro hlt
    rw [(readFields_full s.data (s.data.getD (s.pos + 5) 0) (s.pos + 6) (by omega)).1] at hlt
    omega)]
  rw [(readFields_full s.data (s.data.getD (s.pos + 5) 0) (s.pos + 6) (by omega)).2,
    ← hqdef, ← hF]

/-- Evaluating the loop body at a data record whose local type is bound to a
`file_id` definition: the step runs the `file_id` patch loop and advances by
the message size. -/
theorem scanStep_data_fileid (u : ScanState) (F : List (Nat × Nat × Nat))
    (hud : ¬(u.data.getD u.pos 0 &&& 0x80 = 0 ∧ u.data.getD u.pos 0 &&& 0x40 ≠ 0))
    (hlk : u.defs (u.data.getD u.pos 0 &&& 0x0F) = some ⟨0, F⟩) :
    scanStep u = ({ u with
      data := (patchFileId (u.pos + 1) u.data F 0 u.manufacturerChanged u.patches).1,
      manufacturerChanged :=
        (patchFileId (u.pos + 1) u.data F 0 u.manufacturerChanged u.patches).2.1,
      patches := (patchFileId (u.pos + 1) u.data F 0 u.manufacturerChanged u.patches).2.2,
      pos := u.pos + 1 + sumSizes F }, none) := by
  simp only [scanStep]
  rw [if_neg hud]
  simp only [dataStep, hlk]
  rw [if_pos trivial]

/-- A complete `file_id` definition immediately followed by a matching data
record, both inside the scanned region, is traversed by the loop in two
non-halting steps that patch the record via `patchFileId`. -/
theorem reaches_fileid_pair (s : ScanState) (q : Nat) (F : List (Nat × Nat × Nat))
    (endPos : Nat)
    (hc : s.pos < endPos) (hc2 : s.pos < s.data.length)
    (hdef : s.data.getD s.pos 0 &&& 0x80 = 0 ∧ s.data.getD s.pos 0 &&& 0x40 ≠ 0)
    (hfit : s.pos + 6 + 3 * s.data.getD (s.pos + 5) 0 ≤ s.data.length)
    (hgmn : readLE16 s.data (s.pos + 3) = 0)
    (hqdef : q = s.pos + 6 + 3 * s.data.getD (s.pos + 5) 0)
    (hF : F = (readFields s.data (s.pos + 6) (s.data.getD (s.pos + 5) 0)).1)
    (hq : q < endPos) (hq2 : q < s.data.length)
    (hqdata : ¬(s.data.getD q 0 &&& 0x80 = 0 ∧ s.data.getD q 0 &&& 0x40 ≠ 0))
    (hmatch : s.data.getD q 0 &&& 0x0F = s.data.getD s.pos 0 &&& 0x0F) :
    Reaches endPos s
      ({ s with
        data := (patchFileId (q + 1) s.data F 0 s.manufacturerChanged s.patches).1,
        defs := (fun t => if t = s.data.getD s.pos 0 &&& 0x0F then some ⟨0, F⟩ else s.defs t),
        manufacturerChanged :=
          (patchFileId (q + 1) s.data F 0 s.manufacturerChanged s.patches).2.1,
        patches := (patchFileId (q + 1) s.data F 0 s.manufacturerChanged s.patches).2.2,
        pos := q + 1 + sumSizes F }) := by
  refine Reaches.step s _ _ hc hc2 (scanStep_def_fileid s q F hdef hfit hgmn hqdef hF) ?_
  refine Reaches.step _ _ _ hq hq2 ?_ (Reaches.refl _)
  exact scanStep_data_fileid
    { s with
      pos := q,
      defs := (fun t => if t = s.data.getD s.pos 0 &&& 0x0F then some ⟨0, F⟩ else s.defs t) }
    F hqdata (by rw [show ({ s with
      pos := q,
      defs := (fun t => if t = s.data.getD s.pos 0 &&& 0x0F then some ⟨0, F⟩ else s.defs t) } :
        ScanState).defs (s.data.getD q 0 &&& 0x0F) =
        (if (s.data.getD q 0 &&& 0x0F) = (s.data.getD s.pos 0 &&& 0x0F)
         then some (⟨0, F⟩ : MsgDef) else s.defs (s.data.getD q 0 &&& 0x0F)) from rfl,
      if_pos hmatch])

/-! ## Header-normalization and driver lemmas -/

theorem normalizeHeader_length (d : List Nat) : (normalizeHeader d).length = d.length := by
  simp only [normalizeHeader]
  split_ifs <;> simp [writeLE16]

theorem normalizeHeader_getD_ne (d : List Nat) {i : Nat} (h : i = 0 ∨ 4 ≤ i) :
    (normalizeHeader d).getD i 0 = d.getD i 0 := by
  simp only [normalizeHeader]
  split_ifs
  · rw [getD_writeLE16_ne _ _ _ (by omega) (by omega), getD_set_ne _ _ (by omega)]
  · rw [getD_writeLE16_ne _ _ _ (by omega) (by omega)]
  · rw [getD_set_ne _ _ (by omega)]
  · rfl

theorem normalizeHeader_values (d : List Nat) (h : 14 ≤ d.length) :
    (normalizeHeader d).getD 1 0 = 16 ∧ readLE16 (normalizeHeader d) 2 = 2134 := by
  simp only [normalizeHeader]
  split_ifs with hp hq hq
  · constructor
    · rw [getD_writeLE16_ne _ _ _ (by omega) (by omega)]
      exact getD_set_self d 16 (by omega)
    · exact readLE16_writeLE16_self _ 2 2134 (by rw [List.length_set]; omega) (by norm_num)
  · constructor
    · rw [getD_writeLE16_ne _ _ _ (by omega) (by omega)]
      exact not_not.mp hq
    · exact readLE16_writeLE16_self _ 2 2134 (by omega) (by norm_num)
  · constructor
    · exact getD_set_self d 16 (by omega)
    · rw [readLE16_eq_of_getD (d.set 1 16) d 2 (getD_set_ne d 16 (by omega))
        (getD_set_ne d 16 (by omega))]
      exact not_not.mp hp
  · exact ⟨not_not.mp hq, not_not.mp hp⟩

theorem endPosOf_le (d : List Nat) : endPosOf d ≤ d.length - 2 := by
  unfold endPosOf
  rw [normalizeHeader_length]
  exact min_le_right _ _

theorem modify_eq_of_valid (d : List Nat) (nm : Nat) (hv : validHeader d) :
    modifyManufacturerBinary d nm = assemble (readLE32 d 4) (scanOf d) := by
  obtain ⟨hv1, hv2, hv3⟩ := hv
  unfold modifyManufacturerBinary
  rw [if_neg (by omega), if_neg (not_not_intro hv2), if_neg (by omega)]

theorem validHeader_of_ok (d : List Nat) (nm : Nat) (out : List Nat)
    (h : modifyManufacturerBinary d nm = .ok out) : validHeader d := by
  unfold modifyManufacturerBinary at h
  split_ifs at h with h1 h2 h3
  exact ⟨by omega, h2, by omega⟩

theorem scanOf_data_length (d : List Nat) : (scanOf d).data.length = d.length := by
  unfold scanOf runScan
  rw [scanLoop_data_length]
  exact normalizeHeader_length d

theorem scanOf_getD_low (d : List Nat) (i : Nat) (hi : i ≤ d.getD 0 0) :
    (scanOf d).data.getD i 0 = (normalizeHeader d).getD i 0 := by
  unfold scanOf runScan
  exact scanLoop_data_lower _ _ (initStateOf d) i hi

/-- Which bytes the post-scan assembly can touch: anything at `i < len - 2`
outside bytes 4–7 is returned unchanged (bytes 4–7 are the payload-size
rewrite; everything from `len - 2` on is the spliced block and the CRC). -/
theorem assemble_getD_preserve (ds : Nat) (s : ScanState) (out : List Nat) (i : Nat)
    (h : assemble ds s = .ok out) (h14 : 14 ≤ s.data.length)
    (hi : i < s.data.length - 2) (hi4 : i < 4 ∨ 8 ≤ i) :
    out.getD i 0 = s.data.getD i 0 := by
  have hfcl : FILE_CREATOR_MESSAGE.length = 16 := rfl
  unfold assemble at h
  split_ifs at h with hmc hfc h16 hov
  · rw [Except.ok.injEq] at h
    subst h
    rw [getD_writeLE16_ne _ _ _ (by omega) (by omega)]
  · rw [Except.ok.injEq] at h
    subst h
    rfl
  · simp only [] at h
    have hlen1 : (insertAt s.data (s.data.length - 2) FILE_CREATOR_MESSAGE).length =
        s.data.length + 16 := by
      rw [length_insertAt _ _ _ (by omega), hfcl]
    have hlen2 : (writeLE32 (insertAt s.data (s.data.length - 2) FILE_CREATOR_MESSAGE)
        4 (ds + FILE_CREATOR_MESSAGE.length)).length = s.data.length + 16 := by
      rw [length_writeLE32, hlen1]
    rw [if_pos (by rw [hlen2]; omega), Except.ok.injEq] at h
    subst h
    rw [getD_writeLE16_ne _ _ _ (by rw [hlen2]; omega) (by rw [hlen2]; omega),
      getD_writeLE32_ne _ _ _ (by omega) (by omega) (by omega) (by omega)]
    exact getD_insertAt_lt _ _ _ hi (by omega)
  · rw [Except.ok.injEq] at h
    subst h
    rfl

/-- Rewriting the trailing CRC makes the trailer match the bytes before it:
the shape shared by both CRC-rewrite sites of the assembly. -/
theorem crc_rewrite_ok (S : List Nat) (h2 : 2 ≤ S.length) :
    calculateCrc16 ((writeLE16 S (S.length - 2)
        (calculateCrc16 (S.take (S.length - 2)))).take
      ((writeLE16 S (S.length - 2) (calculateCrc16 (S.take (S.length - 2)))).length - 2)) =
    readLE16 (writeLE16 S (S.length - 2) (calculateCrc16 (S.take (S.length - 2))))
      ((writeLE16 S (S.length - 2) (calculateCrc16 (S.take (S.length - 2)))).length - 2) := by
  rw [length_writeLE16]
  rw [take_writeLE16_of_le S _ (Nat.le_refl _)]
  exact (readLE16_writeLE16_self S (S.length - 2) _ (by omega) (calculateCrc16_lt _)).symm

theorem assemble_ok_of_no_overflow (ds : Nat) (s : ScanState)
    (hov : ds + 16 < 4294967296) : ∃ out, assemble ds s = .ok out := by
  have hfcl : FILE_CREATOR_MESSAGE.length = 16 := rfl
  unfold assemble
  split_ifs
  all_goals
    first
    | exact ⟨_, rfl⟩
    | (exfalso; simp only [hfcl] at *; omega)

/-! ## Claim theorems -/

/-- Claim C10: The `new_manufacturer` parameter of `_modify_manufacturer_binary`
has no effect on the result: for every input `d` and any two values `m₁`,
`m₂`, the results coincide — the manufacturer value written is always the
literal 1 (and the public `convert_fit` path passes 260, Zwift, to no
effect). -/
theorem claim10_new_manufacturer_unused (d : List Nat) (m₁ m₂ : Nat) :
    modifyManufacturerBinary d m₁ = modifyManufacturerBinary d m₂ := rfl

/-- Claim C8: Every input shorter than 14 bytes, or whose bytes 8–11 are not the
literal `.FIT`, or whose byte 0 (header_size) is below 12, makes `convert`
fail with a `FitConverterError` and return no bytes. -/
theorem claim8_malformed_input_fails (d : List Nat)
    (h : d.length < 14 ∨ ¬((d.drop 8).take 4 = [0x2E, 0x46, 0x49, 0x54]) ∨
      d.getD 0 0 < 12) :
    ∃ e, convertFit d = .error e := by
  unfold convertFit
  by_cases hempty : d = []
  · rw [if_pos hempty]
    exact ⟨.emptyInput, rfl⟩
  · rw [if_neg hempty]
    unfold modifyManufacturerBinary
    by_cases h1 : d.length < 14
    · rw [if_pos h1]
      exact ⟨.tooShort, rfl⟩
    · rw [if_neg h1]
      by_cases h2 : ¬((d.drop 8).take 4 = [0x2E, 0x46, 0x49, 0x54])
      · rw [if_pos h2]
        exact ⟨.badSignature, rfl⟩
      · rw [if_neg h2]
        have h3 : d.getD 0 0 < 12 := by
          rcases h with h | h | h
          · omega
          · exact absurd (not_not.mp h2) h
          · exact h
        rw [if_pos h3]
        exact ⟨.headerTooShort, rfl⟩

/-- Witness for C8 at the concrete 13-byte input. -/
theorem claim8_witness :
    c8Input.length < 14 ∧ ∃ e, convertFit c8Input = .error e :=
  ⟨by decide, claim8_malformed_input_fails c8Input (Or.inl (by decide))⟩

/-- Claim C6: For every input on which `convert` succeeds, the output's byte 1
(protocol_version) is 16 and bytes 2–3 (profile_version, LE u16) read 2134 —
whether or not any payload field was patched and wherever the scan halted. -/
theorem claim6_header_normalized (d : List Nat) (nm : Nat) (out : List Nat)
    (h : modifyManufacturerBinary d nm = .ok out) :
    out.getD 1 0 = 16 ∧ readLE16 out 2 = 2134 := by
  obtain ⟨hv1, hv2, hv3⟩ := validHeader_of_ok d nm out h
  rw [modify_eq_of_valid d nm ⟨hv1, hv2, hv3⟩] at h
  have hlen : (scanOf d).data.length = d.length := scanOf_data_length d
  have hnv := normalizeHeader_values d hv1
  have hb1 : (scanOf d).data.getD 1 0 = 16 := by
    rw [scanOf_getD_low d 1 (by omega)]
    exact hnv.1
  have hb2 : (scanOf d).data.getD 2 0 = (normalizeHeader d).getD 2 0 :=
    scanOf_getD_low d 2 (by omega)
  have hb3 : (scanOf d).data.getD 3 0 = (normalizeHeader d).getD 3 0 :=
    scanOf_getD_low d 3 (by omega)
  have ho1 : out.getD 1 0 = (scanOf d).data.getD 1 0 :=
    assemble_getD_preserve _ _ _ 1 h (by omega) (by omega) (by omega)
  have ho2 : out.getD 2 0 = (scanOf d).data.getD 2 0 :=
    assemble_getD_preserve _ _ _ 2 h (by omega) (by omega) (by omega)
  have ho3 : out.getD 3 0 = (scanOf d).data.getD 3 0 :=
    assemble_getD_preserve _ _ _ 3 h (by omega) (by omega) (by omega)
  constructor
  · rw [ho1, hb1]
  · rw [readLE16_eq_of_getD out (normalizeHeader d) 2 (by rw [ho2, hb2])
      (by rw [ho3, hb3])]
    exact hnv.2

/-- Witness for C6 at a concrete normalization-only input. -/
theorem claim6_witness : c6wOut.getD 1 0 = 16 ∧ readLE16 c6wOut 2 = 2134 :=
  claim6_header_normalized c6wInput 1 c6wOut (by decide)

/-- Claim C1, counterexample: On `c1ceInput` `convert` succeeds and returns the
buffer unchanged (no manufacturer field was found, so the CRC is not
recomputed), yet the CRC-16 of the output's first `len − 2` bytes does not
equal the trailer read as LE u16 — refuting the claim's "always", which the
spec itself contradicts in §4.5/§4.6 (recomputation is conditional on
`manufacturer_changed`). -/
theorem claim1_checksum_counterexample :
    convertFit c1ceInput = .ok c1ceInput ∧
    calculateCrc16 (c1ceInput.take (c1ceInput.length - 2)) ≠
      readLE16 c1ceInput (c1ceInput.length - 2) := by
  constructor
  · decide
  · decide

/-- Claim C1, amended: For every input on which `convert` succeeds and whose
scan patched a manufacturer field, the FIT CRC-16 over the output bytes
`[0, len−2)` equals the final two output bytes read as LE u16.  (The original
claim extended this to inputs where nothing was patched; the counterexample
shows the code skips the CRC rewrite there.) -/
theorem claim1_checksum_amended (d : List Nat) (nm : Nat) (out : List Nat)
    (h : modifyManufacturerBinary d nm = .ok out)
    (hmc : (scanOf d).manufacturerChanged = true) :
    calculateCrc16 (out.take (out.length - 2)) = readLE16 out (out.length - 2) := by
  obtain ⟨hv1, hv2, hv3⟩ := validHeader_of_ok d nm out h
  rw [modify_eq_of_valid d nm ⟨hv1, hv2, hv3⟩] at h
  have hInv : Inv (scanOf d) := by
    apply scanLoop_inv
    refine ⟨?_, Or.inl (fun t => rfl), ?_⟩
    · exact hv3
    · intro hx
      exact Bool.noConfusion hx
  have h16 : 16 ≤ (scanOf d).data.length := hInv.2.2 hmc
  have hfcl : FILE_CREATOR_MESSAGE.length = 16 := rfl
  unfold assemble at h
  rw [if_pos hmc] at h
  by_cases hfc : (scanOf d).fileCreatorFound = true
  · rw [if_pos hfc, if_pos h16, Except.ok.injEq] at h
    subst h
    exact crc_rewrite_ok (scanOf d).data (by omega)
  · rw [if_neg hfc] at h
    by_cases hov : 4294967296 ≤ readLE32 d 4 + FILE_CREATOR_MESSAGE.length
    · rw [if_pos hov] at h
      exact absurd h (by simp)
    · rw [if_neg hov] at h
      simp only [] at h
      have hlen2 : (writeLE32 (insertAt (scanOf d).data ((scanOf d).data.length - 2)
          FILE_CREATOR_MESSAGE) 4 (readLE32 d 4 + FILE_CREATOR_MESSAGE.length)).length =
          (scanOf d).data.length + 16 := by
        rw [length_writeLE32, length_insertAt _ _ _ (by omega), hfcl]
      rw [if_pos (by rw [hlen2]; omega), Except.ok.injEq] at h
      subst h
      exact crc_rewrite_ok _ (by rw [hlen2]; omega)

set_option maxRecDepth 10000 in
/-- Witness for C1 (amended) at a concrete manufacturer-patching input. -/
theorem claim1_checksum_witness :
    calculateCrc16 (c1wOut.take (c1wOut.length - 2)) =
      readLE16 c1wOut (c1wOut.length - 2) :=
  claim1_checksum_amended c1wInput 1 c1wOut (by decide) (by decide)

set_option maxRecDepth 100000 in
/-- Claim C2, code bug: `convert` is not idempotent.  On `c2Input` both
`convert x` and `convert (convert x)` succeed, yet they differ: the first
conversion patches the manufacturer, halts at the unbound local type `0x0F`,
and splices a file_creator block after the halt point; the second conversion
halts at the same record — before ever seeing that block — so
`file_creator_found` stays false and a *second* 16-byte block is spliced
(43 → 59 bytes), contradicting the source's own "Add FileCreator message only
if not already present". -/
theorem claim2_idempotence_code_bug :
    (convertFit c2Input).isOk = true ∧
    ((convertFit c2Input).bind convertFit).isOk = true ∧
    (convertFit c2Input).bind convertFit ≠ convertFit c2Input := by
  refine ⟨by decide, by decide, by decide⟩

/-- Claim C3: Whenever the scan is at a definition record whose declared
field_count needs more bytes than remain in the buffer (but whose fixed
5-byte part still fits, so the field-reading loop is entered), the scan halts
at that record with reason `truncatedDef`: the result is the same for every
remaining fuel — no further record is ever processed. -/
theorem claim3_truncated_definition (endPos fuel₁ fuel₂ : Nat) (s : ScanState)
    (hc : s.pos < endPos ∧ s.pos < s.data.length)
    (hdef : s.data.getD s.pos 0 &&& 0x80 = 0 ∧ s.data.getD s.pos 0 &&& 0x40 ≠ 0)
    (hfix : s.pos + 5 < s.data.length)
    (htrunc : s.data.length < s.pos + 6 + 3 * s.data.getD (s.pos + 5) 0) :
    scanLoop endPos (fuel₁ + 1) s = scanLoop endPos (fuel₂ + 1) s ∧
    (scanLoop endPos (fuel₁ + 1) s).2 = .truncatedDef := by
  have e45 : s.pos + 1 + 4 = s.pos + 5 := by omega
  have e56 : s.pos + 1 + 5 = s.pos + 6 := by omega
  obtain ⟨s', hds⟩ : ∃ s', defStep s (s.data.getD s.pos 0) = (s', some .truncatedDef) := by
    simp only [defStep]
    rw [e45, e56]
    rw [if_neg (show ¬(s.data.length ≤ s.pos + 5) by omega)]
    rw [if_pos (readFields_short s.data (s.data.getD (s.pos + 5) 0) (s.pos + 6)
      (by omega) htrunc)]
    exact ⟨_, rfl⟩
  have hss : scanStep s = (s', some .truncatedDef) := by
    simp only [scanStep]
    rw [if_pos hdef]
    exact hds
  have key : ∀ fuel, scanLoop endPos (fuel + 1) s = (s', .truncatedDef) := by
    intro fuel
    rw [scanLoop, if_pos hc, hss]
  exact ⟨(key fuel₁).trans (key fuel₂).symm, by rw [key fuel₁]⟩

/-- Witness for C3: a concrete state at a definition declaring 2 fields with
no bytes left for them; the scan's result is fuel-independent and tagged
`truncatedDef`. -/
theorem claim3_witness :
    scanLoop 16 1 c3wState = scanLoop 16 6 c3wState ∧
    (scanLoop 16 1 c3wState).2 = .truncatedDef :=
  claim3_truncated_definition 16 0 5 c3wState ⟨by decide, by decide⟩
    ⟨by decide, by decide⟩ (by decide) (by decide)

set_option maxRecDepth 100000 in
/-- Claim C7, counterexample: `c7ceInput` passes header validation and its scan
does halt at an unbound local type after patching the manufacturer — but
`convert` still raises: its declared payload size is `0xFFFFFFFF`, so the
data-size update `+16` overflows u32 and `struct.pack_into` throws, surfaced
as a `FitConverterError`.  `convert` returns no bytes, refuting "never raises,
and convert returns the buffer". -/
theorem claim7_counterexample :
    convertFit c7ceInput = .error .packOverflow ∧
    (runScan c7ceInput).2 = .unknownLocalType := by
  refine ⟨by decide, by decide⟩

/-- Claim C7, amended: For every input that passes header validation, if the
scan reaches a data record referencing a local_message_type with no stored
definition, the scan stops right there (reason `unknownLocalType`) keeping
every mutation performed so far, and — provided the declared payload size + 16
does not overflow u32 (the one raising path) — `convert` succeeds, returning
the buffer assembled from that halt state. -/
theorem claim7_unknown_local_halts (d : List Nat) (nm : Nat) (s : ScanState)
    (hv : validHeader d)
    (hr : Reaches (endPosOf d) (initStateOf d) s)
    (hc : s.pos < endPosOf d)
    (hdata : ¬(s.data.getD s.pos 0 &&& 0x80 = 0 ∧ s.data.getD s.pos 0 &&& 0x40 ≠ 0))
    (hnone : s.defs (s.data.getD s.pos 0 &&& 0x0F) = none)
    (hov : readLE32 d 4 + 16 < 4294967296) :
    runScan d = ({ s with pos := s.pos + 1 }, .unknownLocalType) ∧
    modifyManufacturerBinary d nm =
      assemble (readLE32 d 4) ({ s with pos := s.pos + 1 }) ∧
    ∃ out, modifyManufacturerBinary d nm = .ok out := by
  obtain ⟨hv1, hv2, hv3⟩ := hv
  have hdl : s.data.length = d.length := by
    have h := reaches_data_length hr
    rw [h]
    exact normalizeHeader_length d
  have hc2 : s.pos < s.data.length := by
    have h1 := endPosOf_le d
    omega
  have hstep : scanStep s = ({ s with pos := s.pos + 1 }, some .unknownLocalType) := by
    simp only [scanStep]
    rw [if_neg hdata]
    simp only [dataStep, hnone]
  have hone : ∀ fuel, scanLoop (endPosOf d) (fuel + 1) s =
      ({ s with pos := s.pos + 1 }, .unknownLocalType) := by
    intro fuel
    rw [scanLoop, if_pos ⟨hc, hc2⟩, hstep]
  have hrun : runScan d = ({ s with pos := s.pos + 1 }, .unknownLocalType) := by
    unfold runScan
    rw [reaches_scanLoop hr (endPosOf d) (endPosOf d) (by omega) (by omega)]
    rw [scanLoop_fuel_irrel (endPosOf d) (endPosOf d) ((endPosOf d - s.pos - 1) + 1) s
      (by omega) (by omega)]
    exact hone _
  refine ⟨hrun, ?_, ?_⟩
  · rw [modify_eq_of_valid d nm ⟨hv1, hv2, hv3⟩]
    unfold scanOf
    rw [hrun]
  · rw [modify_eq_of_valid d nm ⟨hv1, hv2, hv3⟩]
    unfold scanOf
    rw [hrun]
    exact assemble_ok_of_no_overflow _ _ hov

set_option maxRecDepth 100000 in
/-- Witness for C7 (amended): the unbound record sits first in the stream, so
the initial state itself satisfies the hypotheses. -/
theorem claim7_witness :
    runScan c7wInput =
      ({ initStateOf c7wInput with pos := (initStateOf c7wInput).pos + 1 },
        .unknownLocalType) ∧
    modifyManufacturerBinary c7wInput 260 =
      assemble (readLE32 c7wInput 4)
        ({ initStateOf c7wInput with pos := (initStateOf c7wInput).pos + 1 }) ∧
    ∃ out, modifyManufacturerBinary c7wInput 260 = .ok out :=
  claim7_unknown_local_halts c7wInput 260 (initStateOf c7wInput)
    ⟨by decide, by decide, by decide⟩ (Reaches.refl _) (by decide) (by decide) rfl
    (by decide)

/-- Claim C5: For every input on which `convert` succeeds: exactly when a
manufacturer field was patched and no global-message-49 definition was
observed, the fixed 16-byte file_creator block sits at offset `len − 2` of
the output (immediately before where the 2 trailing checksum bytes were), the
header payload size at offset 4 grows by 16, and the output is 16 bytes
longer; in every other case the output has the input's length. -/
theorem claim5_file_creator_insertion (d : List Nat) (nm : Nat) (out : List Nat)
    (h : modifyManufacturerBinary d nm = .ok out) :
    ((scanOf d).manufacturerChanged = true ∧ (scanOf d).fileCreatorFound = false →
      out.length = d.length + 16 ∧
      readLE32 out 4 = readLE32 d 4 + 16 ∧
      (out.drop (d.length - 2)).take 16 = FILE_CREATOR_MESSAGE) ∧
    (¬((scanOf d).manufacturerChanged = true ∧ (scanOf d).fileCreatorFound = false) →
      out.length = d.length) := by
  obtain ⟨hv1, hv2, hv3⟩ := validHeader_of_ok d nm out h
  rw [modify_eq_of_valid d nm ⟨hv1, hv2, hv3⟩] at h
  have hlen : (scanOf d).data.length = d.length := scanOf_data_length d
  have hfcl : FILE_CREATOR_MESSAGE.length = 16 := rfl
  unfold assemble at h
  by_cases hmc : (scanOf d).manufacturerChanged = true
  · rw [if_pos hmc] at h
    by_cases hfc : (scanOf d).fileCreatorFound = true
    · rw [if_pos hfc, Except.ok.injEq] at h
      subst h
      have hout : (if 16 ≤ (scanOf d).data.length then
          writeLE16 (scanOf d).data ((scanOf d).data.length - 2)
            (calculateCrc16 ((scanOf d).data.take ((scanOf d).data.length - 2)))
          else (scanOf d).data).length = d.length := by
        split_ifs
        · rw [length_writeLE16, hlen]
        · exact hlen
      refine ⟨fun hx => ?_, fun _ => hout⟩
      rw [hx.2] at hfc
      exact absurd hfc (by simp)
    · rw [if_neg hfc] at h
      have hfcf : (scanOf d).fileCreatorFound = false := by
        cases hb : (scanOf d).fileCreatorFound
        · rfl
        · exact absurd hb hfc
      by_cases hov : 4294967296 ≤ readLE32 d 4 + FILE_CREATOR_MESSAGE.length
      · rw [if_pos hov] at h
        exact absurd h (by simp)
      · rw [if_neg hov] at h
        simp only [] at h
        have hlenX : (insertAt (scanOf d).data ((scanOf d).data.length - 2)
            FILE_CREATOR_MESSAGE).length = d.length + 16 := by
          rw [length_insertAt _ _ _ (by omega), hfcl, hlen]
        have hlenY : (writeLE32 (insertAt (scanOf d).data ((scanOf d).data.length - 2)
            FILE_CREATOR_MESSAGE) 4 (readLE32 d 4 + FILE_CREATOR_MESSAGE.length)).length =
            d.length + 16 := by
          rw [length_writeLE32, hlenX]
        rw [if_pos (by rw [hlenY]; omega), Except.ok.injEq] at h
        subst h
        refine ⟨fun _ => ⟨?_, ?_, ?_⟩, fun hx => absurd ⟨hmc, hfcf⟩ hx⟩
        · rw [length_writeLE16, hlenY]
        · have hout4 : readLE32 (writeLE16 (writeLE32 (insertAt (scanOf d).data
              ((scanOf d).data.length - 2) FILE_CREATOR_MESSAGE) 4
              (readLE32 d 4 + FILE_CREATOR_MESSAGE.length))
              ((writeLE32 (insertAt (scanOf d).data ((scanOf d).data.length - 2)
                FILE_CREATOR_MESSAGE) 4
                (readLE32 d 4 + FILE_CREATOR_MESSAGE.length)).length - 2)
              (calculateCrc16 ((writeLE32 (insertAt (scanOf d).data
                ((scanOf d).data.length - 2) FILE_CREATOR_MESSAGE) 4
                (readLE32 d 4 + FILE_CREATOR_MESSAGE.length)).take
                ((writeLE32 (insertAt (scanOf d).data ((scanOf d).data.length - 2)
                  FILE_CREATOR_MESSAGE) 4
                  (readLE32 d 4 + FILE_CREATOR_MESSAGE.length)).length - 2)))) 4 =
            readLE32 (writeLE32 (insertAt (scanOf d).data ((scanOf d).data.length - 2)
              FILE_CREATOR_MESSAGE) 4 (readLE32 d 4 + FILE_CREATOR_MESSAGE.length)) 4 :=
            readLE32_eq_of_getD _ _ 4
              (getD_writeLE16_ne _ _ _ (by rw [hlenY]; omega) (by rw [hlenY]; omega))
              (getD_writeLE16_ne _ _ _ (by rw [hlenY]; omega) (by rw [hlenY]; omega))
              (getD_writeLE16_ne _ _ _ (by rw [hlenY]; omega) (by rw [hlenY]; omega))
              (getD_writeLE16_ne _ _ _ (by rw [hlenY]; omega) (by rw [hlenY]; omega))
          rw [hout4]
          rw [readLE32_writeLE32_self _ 4 _ (by rw [hlenX]; omega)
            (by rw [hfcl] at hov ⊢; omega), hfcl]
        · apply drop_take_eq_of_getD _ _ _ _ hfcl
            (by rw [length_writeLE16, hlenY]; omega)
          intro j hj
          rw [getD_writeLE16_ne _ _ _ (by rw [hlenY]; omega) (by rw [hlenY]; omega)]
          rw [getD_writeLE32_ne _ _ _ (by omega) (by omega) (by omega) (by omega)]
          have he : d.length - 2 + j = (scanOf d).data.length - 2 + j := by omega
          rw [he]
          exact getD_insertAt_mid _ _ _ (by rw [hfcl]; omega) (by omega)
  · rw [if_neg hmc, Except.ok.injEq] at h
    subst h
    exact ⟨fun hx => absurd hx.1 hmc, fun _ => hlen⟩

set_option maxRecDepth 100000 in
/-- Witness for C5 at a concrete input that triggers the insertion. -/
theorem claim5_witness :
    ((scanOf c5wInput).manufacturerChanged = true ∧
        (scanOf c5wInput).fileCreatorFound = false →
      c5wOut.length = c5wInput.length + 16 ∧
      readLE32 c5wOut 4 = readLE32 c5wInput 4 + 16 ∧
      (c5wOut.drop (c5wInput.length - 2)).take 16 = FILE_CREATOR_MESSAGE) ∧
    (¬((scanOf c5wInput).manufacturerChanged = true ∧
        (scanOf c5wInput).fileCreatorFound = false) →
      c5wOut.length = c5wInput.length) :=
  claim5_file_creator_insertion c5wInput 1 c5wOut (by decide)

/-- Claim C9: Frame property: for every input on which `convert` succeeds, any
byte at an index `i` that is byte 0 or at least 8 (i.e. outside the rewritten
header bytes 1–7), lies below `len − 2` (i.e. before the splice point and the
trailer), and is covered by none of the scan's identity-field patches, is
returned unchanged; moreover every patch the scan records is 1 or 2 bytes
wide — so in particular the 4-byte time_created field of `file_id`, and every
byte of records with other global message numbers, are never rewritten. -/
theorem claim9_frame (d : List Nat) (nm : Nat) (out : List Nat) (i : Nat)
    (h : modifyManufacturerBinary d nm = .ok out)
    (hi0 : i = 0 ∨ 8 ≤ i) (hilt : i < d.length - 2)
    (hout : ∀ pw ∈ (scanOf d).patches, i < pw.1 ∨ pw.1 + pw.2 ≤ i) :
    out.getD i 0 = d.getD i 0 ∧
    ∀ pw ∈ (scanOf d).patches, pw.2 = 1 ∨ pw.2 = 2 := by
  obtain ⟨hv1, hv2, hv3⟩ := validHeader_of_ok d nm out h
  rw [modify_eq_of_valid d nm ⟨hv1, hv2, hv3⟩] at h
  have hlen : (scanOf d).data.length = d.length := scanOf_data_length d
  obtain ⟨new, hn, hb⟩ := scanLoop_patches (endPosOf d) (endPosOf d) (initStateOf d)
  have hn' : (scanOf d).patches = new := by
    unfold scanOf runScan
    rw [hn]
    exact List.append_nil new
  constructor
  · have h1 : out.getD i 0 = (scanOf d).data.getD i 0 :=
      assemble_getD_preserve _ _ _ i h (by omega) (by omega) (by omega)
    have h2 : (scanOf d).data.getD i 0 = (normalizeHeader d).getD i 0 :=
      scanLoop_frame (endPosOf d) (endPosOf d) (initStateOf d) i hout
    have h3 : (normalizeHeader d).getD i 0 = d.getD i 0 :=
      normalizeHeader_getD_ne d (by omega)
    rw [h1, h2, h3]
  · intro pw hm
    rw [hn'] at hm
    exact (hb pw hm).2.1

set_option maxRecDepth 100000 in
/-- Witness for C9: byte 13 of the concrete patching input (inside the
definition record, away from the single patch at (22, 2)) is preserved. -/
theorem claim9_witness :
    c9wOut.getD 13 0 = c9wInput.getD 13 0 ∧
    ∀ pw ∈ (scanOf c9wInput).patches, pw.2 = 1 ∨ pw.2 = 2 :=
  claim9_frame c9wInput 1 c9wOut 13 (by decide) (by decide) (by decide) (by decide)

set_option maxRecDepth 100000 in
/-- Claim C4, counterexample: `c4ceInput` passes header validation, `convert`
succeeds on it, and it contains a complete `file_id` definition immediately
followed by its matching data record, entirely inside the scanned region —
but an earlier data record with an unbound local type (`0x0F` right at stream
start) halts the scan first, so the pair is never patched: the output equals
the input and its manufacturer field still reads 32, not 1. -/
theorem claim4_counterexample :
    convertFit c4ceInput = .ok c4ceInput ∧ readLE16 c4ceInput 23 = 32 := by
  refine ⟨by decide, by decide⟩

/-- Claim C4, amended: For every valid input, whenever the scan *reaches* a
complete `file_id` (global message 0) definition record immediately followed
by a matching data record lying inside the scanned region, the output of a
successful `convert` carries, at the cumulative-offset position of each
declared field, the patched values: field (0, size 1) reads 4, field
(1, size 2) reads 1 (LE u16), field (2, size 2) reads 3122 (LE u16).  `q` is
the data record's position, `F` the declared field list, `j` the index of the
field in question, located `sumSizes (F.take j)` bytes into the record — the
sum of the sizes of the fields declared before it. -/
theorem claim4_file_id_patched (d : List Nat) (nm : Nat) (out : List Nat)
    (s : ScanState) (q j fdn fsz bt : Nat) (F : List (Nat × Nat × Nat))
    (hv : validHeader d)
    (hr : Reaches (endPosOf d) (initStateOf d) s)
    (hc : s.pos < endPosOf d)
    (hdef : s.data.getD s.pos 0 &&& 0x80 = 0 ∧ s.data.getD s.pos 0 &&& 0x40 ≠ 0)
    (hfit : s.pos + 6 + 3 * s.data.getD (s.pos + 5) 0 ≤ s.data.length)
    (hgmn : readLE16 s.data (s.pos + 3) = 0)
    (hqdef : q = s.pos + 6 + 3 * s.data.getD (s.pos + 5) 0)
    (hF : F = (readFields s.data (s.pos + 6) (s.data.getD (s.pos + 5) 0)).1)
    (hq : q < endPosOf d)
    (hqdata : ¬(s.data.getD q 0 &&& 0x80 = 0 ∧ s.data.getD q 0 &&& 0x40 ≠ 0))
    (hmatch : s.data.getD q 0 &&& 0x0F = s.data.getD s.pos 0 &&& 0x0F)
    (hrec : q + 1 + sumSizes F ≤ endPosOf d)
    (hj : j < F.length)
    (hfield : F.getD j (0, 0, 0) = (fdn, fsz, bt))
    (hmod : modifyManufacturerBinary d nm = .ok out) :
    (fdn = 0 ∧ fsz = 1 → out.getD (q + 1 + sumSizes (F.take j)) 0 = 4) ∧
    (fdn = 1 ∧ fsz = 2 → readLE16 out (q + 1 + sumSizes (F.take j)) = 1) ∧
    (fdn = 2 ∧ fsz = 2 → readLE16 out (q + 1 + sumSizes (F.take j)) = 3122) := by
  obtain ⟨hv1, hv2, hv3⟩ := hv
  have hep := endPosOf_le d
  have hdl : s.data.length = d.length := by
    rw [reaches_data_length hr]
    exact normalizeHeader_length d
  have hpos0 : d.getD 0 0 ≤ s.pos := reaches_pos_le hr
  have hc2 : s.pos < s.data.length := by omega
  have hq2 : q < s.data.length := by omega
  obtain ⟨S2, hr2, hS2pos, hS2data⟩ :
      ∃ S2, Reaches (endPosOf d) s S2 ∧ S2.pos = q + 1 + sumSizes F ∧
        S2.data = (patchFileId (q + 1) s.data F 0 s.manufacturerChanged s.patches).1 :=
    ⟨_, reaches_fileid_pair s q F (endPosOf d) hc hc2 hdef hfit hgmn hqdef hF hq hq2
      hqdata hmatch, rfl, rfl⟩
  have hrAll : Reaches (endPosOf d) (initStateOf d) S2 := reaches_trans hr hr2
  have hmod' : assemble (readLE32 d 4) (scanOf d) = .ok out := by
    rw [← modify_eq_of_valid d nm ⟨hv1, hv2, hv3⟩]
    exact hmod
  have hslen : (scanOf d).data.length = d.length := scanOf_data_length d
  have htrans : ∀ x, x < q + 1 + sumSizes F → x < d.length - 2 → 8 ≤ x →
      out.getD x 0 = S2.data.getD x 0 := by
    intro x hx1 hx2 hx3
    have e1 : out.getD x 0 = (scanOf d).data.getD x 0 :=
      assemble_getD_preserve _ _ _ x hmod' (by omega) (by omega) (Or.inr hx3)
    have heq : scanLoop (endPosOf d) (endPosOf d) (initStateOf d) =
        scanLoop (endPosOf d) (endPosOf d) S2 :=
      reaches_scanLoop hrAll (endPosOf d) (endPosOf d) (by omega) (by omega)
    have e2 : (scanOf d).data.getD x 0 = S2.data.getD x 0 := by
      unfold scanOf runScan
      rw [heq]
      exact scanLoop_data_lower _ _ S2 x (by omega)
    rw [e1, e2]
  have hval := patchFileId_value (q + 1) F j s.data 0 s.manufacturerChanged s.patches hj
    (by omega)
  have hsb := sumSizes_take_bound F j hj
  rw [hfield] at hsb
  simp only [] at hsb
  have et : q + 1 + 0 + sumSizes (F.take j) = q + 1 + sumSizes (F.take j) := by omega
  refine ⟨fun hx => ?_, fun hx => ?_, fun hx => ?_⟩
  · have hw := hval.1 ⟨by rw [hfield]; exact hx.1, by rw [hfield]; exact hx.2⟩
    rw [et] at hw
    rw [htrans (q + 1 + sumSizes (F.take j)) (by omega) (by omega) (by omega), hS2data]
    exact hw
  · have hw := hval.2.1 ⟨by rw [hfield]; exact hx.1, by rw [hfield]; exact hx.2⟩
    rw [et] at hw
    have hb0 := htrans (q + 1 + sumSizes (F.take j)) (by omega) (by omega) (by omega)
    have hb1 := htrans (q + 1 + sumSizes (F.take j) + 1) (by omega) (by omega) (by omega)
    rw [hS2data] at hb0 hb1
    rw [readLE16_eq_of_getD _ _ _ hb0 hb1]
    exact hw
  · have hw := hval.2.2 ⟨by rw [hfield]; exact hx.1, by rw [hfield]; exact hx.2⟩
    rw [et] at hw
    have hb0 := htrans (q + 1 + sumSizes (F.take j)) (by omega) (by omega) (by omega)
    have hb1 := htrans (q + 1 + sumSizes (F.take j) + 1) (by omega) (by omega) (by omega)
    rw [hS2data] at hb0 hb1
    rw [readLE16_eq_of_getD _ _ _ hb0 hb1]
    exact hw

set_option maxRecDepth 100000 in
/-- Witness for C4 (amended): the `file_id` pair sits at the very start of
`c4wInput`'s stream, so the initial state reaches it trivially; instantiated
at field index 1 — the manufacturer — whose patched LE u16 value reads 1. -/
theorem claim4_witness :
    ((1 : Nat) = 0 ∧ (2 : Nat) = 1 →
      c4wOut.getD (27 + 1 + sumSizes (c4wF.take 1)) 0 = 4) ∧
    ((1 : Nat) = 1 ∧ (2 : Nat) = 2 →
      readLE16 c4wOut (27 + 1 + sumSizes (c4wF.take 1)) = 1) ∧
    ((1 : Nat) = 2 ∧ (2 : Nat) = 2 →
      readLE16 c4wOut (27 + 1 + sumSizes (c4wF.take 1)) = 3122) :=
  claim4_file_id_patched c4wInput 1 c4wOut (initStateOf c4wInput) 27 1 1 2 132 c4wF
    ⟨by decide, by decide, by decide⟩ (Reaches.refl _) (by decide)
    ⟨by decide, by decide⟩ (by decide) (by decide) (by decide) (by decide) (by decide)
    (by decide) (by decide) (by decide) (by decide) (by decide) (by decide)

end FitConverter
